import Mathlib

/-!
Verification of the Luzhanqi board/rule engine (coordinates.py, misc.py,
luzhanqi.py) against its natural-language specification.

The Python sources are shallowly embedded: pure functions become Lean
functions, Python exceptions become `Except` results or `Option.none`,
Python sets/dicts become lists (insertion-ordered, which matches CPython
dicts; for sets a fixed enumeration order is chosen where the source order
is unspecified and provably irrelevant).  Machine integers are `Int`/`Nat`
(Python ints are unbounded, so no wrap-around modelling is needed).
-/

namespace Luzhanqi

/-! ## CenteredOriginAxis (coordinates.py)

An axis of `num_vals` values centered at 0.  `axisContains` embeds
`CenteredOriginAxis.__contains__`, `axisValueAt` embeds the core of
`CenteredOriginAxis.__getitem__` (the `sequence_getitem` decorator's
negative-index/slice handling is not needed: the claims quantify over
plain indices in `[0, size)`, which the decorator passes through
unchanged), and `axisIndex` embeds `CenteredOriginAxis.index`.
`IndexError`/`ValueError` (and the implicit `None` fall-through of
`__getitem__`) are embedded as `Option.none`. -/

def axisContains (n : Nat) (v : Int) : Bool :=
  if v = 0 then decide (n % 2 ≠ 0)
  else decide (-((n : Int) / 2) ≤ v) && decide (v ≤ (n : Int) / 2)

def axisValueAt (n i : Nat) : Option Int :=
  if i < n then
    let absMax := n / 2
    if i < absMax then some (-(absMax : Int) + i)
    else
      let i1 := i - absMax
      if axisContains n 0 then
        if i1 = 0 then some 0
        else if i1 - 1 < absMax then some (((i1 - 1 : Nat) : Int) + 1) else none
      else
        if i1 < absMax then some ((i1 : Int) + 1) else none
  else none

def axisIndex (n : Nat) (v : Int) : Option Int :=
  if axisContains n v then
    let absMax : Int := ((n / 2 : Nat) : Int)
    if v = 0 then some absMax
    else if v < 0 then some (absMax + v)
    else if axisContains n 0 then some (absMax + v) else some (absMax + v - 1)
  else none

/-! ## Piece catalog (luzhanqi.py class attributes)

The twelve `Piece` archetype singletons become a closed enumeration;
their namedtuple fields become total functions on it.  `Space` keeps its
namedtuple shape.  Functions named after the Python attributes. -/

structure Space where
  name : String
  initial_placement : Bool := true
  safe : Bool := false
  diagonals : Bool := false
  quagmire : Bool := false
deriving DecidableEq

def STATION : Space := { name := "Soldier Station" }

def CAMP : Space := { name := "Camp", safe := true, diagonals := true,
                      initial_placement := false }

def HEADQUARTERS : Space := { name := "Headquarters", quagmire := true }

inductive PieceKind
  | MARSHAL | GENERAL | LIEUT_GENERAL | BRIG_GENERAL
  | COLONEL | MAJOR | CAPTAIN | COMMANDER | ENGINEER
  | BOMB | LANDMINE | FLAG
deriving DecidableEq

/-- A `Piece.initial_placement` matchval: either a `Space` (matched via
`position_spec`) or the `('*', lambda y: ...)` shape (x wildcard plus a
predicate on y) used by `match_sequence`. -/
inductive PlacementVal
  | space (s : Space)
  | starY (p : Int → Bool)

def PieceKind.order : PieceKind → Option Nat
  | .MARSHAL => some 9
  | .GENERAL => some 8
  | .LIEUT_GENERAL => some 7
  | .BRIG_GENERAL => some 6
  | .COLONEL => some 5
  | .MAJOR => some 4
  | .CAPTAIN => some 3
  | .COMMANDER => some 2
  | .ENGINEER => some 1
  | _ => none

def PieceKind.sessile : PieceKind → Bool
  | .LANDMINE | .FLAG => true
  | _ => false

def PieceKind.bomb : PieceKind → Bool
  | .BOMB | .LANDMINE => true
  | _ => false

def PieceKind.defeats_sessile_bombs : PieceKind → Bool
  | .ENGINEER => true
  | _ => false

def PieceKind.railroad_corners : PieceKind → Bool
  | .ENGINEER => true
  | _ => false

def PieceKind.initial_count : PieceKind → Nat
  | .MARSHAL | .GENERAL | .FLAG => 1
  | .LIEUT_GENERAL | .BRIG_GENERAL | .COLONEL | .MAJOR | .BOMB => 2
  | _ => 3

def PieceKind.initial_placement : PieceKind → Option PlacementVal
  | .BOMB => some (.starY (fun y => decide (1 < y)))
  | .LANDMINE => some (.starY (fun y => decide (4 < y)))
  | .FLAG => some (.space HEADQUARTERS)
  | _ => none

/-- The `LuzhanqiBoard.pieces` set, as a list (fixed enumeration order). -/
def pieces : List PieceKind :=
  [.MARSHAL, .GENERAL, .LIEUT_GENERAL, .BRIG_GENERAL,
   .COLONEL, .MAJOR, .CAPTAIN, .COMMANDER, .ENGINEER,
   .BOMB, .LANDMINE, .FLAG]

/-! ## Combat resolution (LuzhanqiBoard.simulate_attack)

The Python function receives two `BoardPiece`s plus optional archetype
overrides and returns the winning *object* (`attacker`, `attacked`) or
`None`; the embedding returns which role won (`AttackWinner`), with
`RuntimeError`/`ValueError` as `Except.error`.  Python truthiness of
`order` (where `None` is falsy and any stored rank 1..9 is truthy) is
embedded by `orderTruthy`. -/

inductive AttackWinner
  | attacker | attacked | neither
deriving DecidableEq

def orderTruthy (k : PieceKind) : Bool :=
  match k.order with
  | none => false
  | some n => decide (n ≠ 0)

/-- The `get_type` helper inside `simulate_attack`: use the override if
given (failing when the piece already has a spec), else the piece's own
spec (a missing one surfaces as an error instead of Python's downstream
`AttributeError`). -/
def get_type (pieceSpec : Option PieceKind) (spec : Option PieceKind) :
    Except String PieceKind :=
  match spec with
  | some s => if pieceSpec.isSome then .error "This piece already has a spec!" else .ok s
  | none =>
    match pieceSpec with
    | some s => .ok s
    | none => .error "piece has no spec"

def simulate_attack_types (attacker_type attacked_type : PieceKind) :
    Except String AttackWinner :=
  if attacker_type.sessile then .error "Sessile pieces cannot attack!"
  else if orderTruthy attacker_type && orderTruthy attacked_type then
    if (attacker_type.order.getD 0) > (attacked_type.order.getD 0) then .ok .attacker
    else if (attacked_type.order.getD 0) > (attacker_type.order.getD 0) then .ok .attacked
    else .ok .neither
  else if attacker_type.bomb then .ok .neither
  else if attacked_type.bomb then
    if attacked_type.sessile && attacker_type.defeats_sessile_bombs then .ok .attacker
    else .ok .neither
  else if attacked_type = .FLAG then .ok .attacker
  else .error "Cannot determine winner???"

def simulate_attack (attackerSpec : Option PieceKind) (attacker_type : Option PieceKind)
    (attackedSpec : Option PieceKind) (attacked_type : Option PieceKind) :
    Except String AttackWinner := do
  let a ← get_type attackerSpec attacker_type
  let d ← get_type attackedSpec attacked_type
  simulate_attack_types a d

/-- The winner of a successful simulation, `none` on a precondition
failure (an `Except.error`). -/
def okWinner (e : Except String AttackWinner) : Option AttackWinner :=
  match e with
  | .ok w => some w
  | .error _ => none

/-! ## Coordinate system and placement geometry

Coordinates are raw `Int × Int` pairs; `inSystemB` embeds
`CoordinateSystem.__contains__` for the board's `(x: 5, y: 12)` axes, and
the `Coord` constructor's validation (`ValueError` on an off-axis
component) appears as filtering on `inSystemB`.  `axisValues` enumerates
an axis as Python iteration over the sequence does (indices `0..n-1`
through `__getitem__`). -/

def axisValues (n : Nat) : List Int :=
  (List.range n).filterMap (axisValueAt n)

def inSystemB (p : Int × Int) : Bool :=
  axisContains 5 p.1 && axisContains 12 p.2

/-- `coords_matching` specialised to callable matchvals (the only use the
placement generators make of it): the cross product of the filtered axis
enumerations, x outermost, as `itertools.product` yields it. -/
def coords_matching (px py : Int → Bool) : List (Int × Int) :=
  ((axisValues 5).filter px).flatMap
    (fun x => ((axisValues 12).filter py).map (fun y => (x, y)))

/-- The `board_spec` defaultdict: camps and the headquarters, defaulting
to a station.  Keyed by the absolute position, as `position_spec` uses it. -/
def board_spec (p : Int × Int) : Space :=
  if p = (1, 2) then CAMP
  else if p = (0, 3) then CAMP
  else if p = (1, 4) then CAMP
  else if p = (1, 6) then HEADQUARTERS
  else STATION

def absPos (p : Int × Int) : Int × Int := (|p.1|, |p.2|)

def position_spec (p : Int × Int) : Space := board_spec (absPos p)

/-- `CenteredOriginAxis.original_and_reflection` (the source raises
`ValueError` off the axis; the embedding returns `[]` there, a branch the
generators never reach since they only feed it on-axis values). -/
def original_and_reflection (n : Nat) (v : Int) : List Int :=
  if axisContains n v = false then []
  else if v = 0 then [v] else [v, -v]

/-- `CenteredOriginAxis.reflection` (same `ValueError` convention). -/
def reflection (n : Nat) (v : Int) : List Int :=
  if axisContains n v = false then []
  else if v = 0 then [v] else [-v]

/-- `map_coord_components` with only the x component mapped: per input
coordinate, the mapped x values crossed with the unchanged y, invalid
results silently dropped. -/
def map_coord_components_x (f : Int → List Int) (coords : List (Int × Int)) :
    List (Int × Int) :=
  coords.flatMap (fun c => ((f c.1).map (fun x => (x, c.2))).filter inSystemB)

/-- `map_coord_components` with only the y component mapped. -/
def map_coord_components_y (f : Int → List Int) (coords : List (Int × Int)) :
    List (Int × Int) :=
  coords.flatMap (fun c => ((f c.2).map (fun y => (c.1, y))).filter inSystemB)

/-- `LuzhanqiBoard.initial_positions`: nonnegative-quadrant coordinates
whose space allows initial placement, expanded by x mirroring. -/
def initial_positions : List (Int × Int) :=
  let nonneg : Int → Bool := fun i => decide (0 ≤ i)
  let absolutes := (coords_matching nonneg nonneg).filter
    (fun p => (position_spec p).initial_placement)
  map_coord_components_x (original_and_reflection 5) absolutes

/-- `LuzhanqiBoard.initial_enemy_positions`: the friendly positions
reflected across y. -/
def initial_enemy_positions : List (Int × Int) :=
  map_coord_components_y (reflection 12) initial_positions

instance {α β : Type} [DecidableEq α] [DecidableEq β] : DecidableEq (Except α β) :=
  fun x y =>
    match x, y with
    | .ok a, .ok b =>
      if h : a = b then isTrue (by rw [h]) else isFalse (by simp [h])
    | .error a, .error b =>
      if h : a = b then isTrue (by rw [h]) else isFalse (by simp [h])
    | .ok _, .error _ => isFalse (by simp)
    | .error _, .ok _ => isFalse (by simp)

/-! ## Railroad lines (LuzhanqiBoard.railroads and their expansion)

An expanded railroad line is a pair of component value lists (x values,
y values); a position lies on the line when each component is a member
(`match_sequence` with tuple matchvals).  `railroads` holds the four
"absolute" lines, scalars already written as one-element lists exactly as
`nonabsolute_matchvals` tuple-izes them; the source iterates a `set`, so
its order is unspecified — the embedding fixes the textual order. -/

def railroads : List (List Int × List Int) :=
  [([0, 1, 2], [5]),
   ([0, 1, 2], [1]),
   ([2], [0, 1, 2, 3, 4, 5]),
   ([0], [0, 1])]

/-- The per-component alternatives produced by `nonabsolute_matchvals`:
mirror the nonzero values; a component containing 0 fuses with its
mirror, otherwise both the original and the mirror are options. -/
def nonabsolute_component_options (c : List Int) : List (List Int) :=
  let refl := (c.filter (fun v => decide (v ≠ 0))).map (fun v => -v)
  if (0 : Int) ∈ c then [c ++ refl] else [c, refl]

/-- `LuzhanqiBoard.nonabsolute_railroad_lines`: the cross product of the
component alternatives of each absolute line. -/
def nonabsolute_railroad_lines : List (List Int × List Int) :=
  railroads.flatMap (fun l =>
    (nonabsolute_component_options l.1).flatMap (fun ox =>
      (nonabsolute_component_options l.2).map (fun oy => (ox, oy))))

/-- `match_sequence` for a 2-component position against a line's tuple
matchvals (tuple matchvals use `in`). -/
def match_sequence (p : Int × Int) (line : List Int × List Int) : Bool :=
  decide (p.1 ∈ line.1) && decide (p.2 ∈ line.2)

/-- The `component_values` helper of `adjacent_railroad_moves`: for each
component, the one-step neighborhood filtered to the line's values. -/
def component_values (pos : Int × Int) (line : List Int × List Int) :
    List Int × List Int :=
  ([pos.1 - 1, pos.1, pos.1 + 1].filter (fun v => decide (v ∈ line.1)),
   [pos.2 - 1, pos.2, pos.2 + 1].filter (fun v => decide (v ∈ line.2)))

/-- `LuzhanqiBoard.adjacent_railroad_moves`: one railroad step from
`pos`, labelling each yielded position with whether a corner has been
used (the incoming label, or a fresh corner when the step's line does not
contain the piece's original position). -/
def adjacent_railroad_moves (spec : Option PieceKind) (orig pos : Int × Int)
    (corner : Bool) : List ((Int × Int) × Bool) :=
  nonabsolute_railroad_lines.flatMap (fun line =>
    if match_sequence pos line &&
       (spec.isNone || (match spec with | some k => k.railroad_corners | none => false) ||
        match_sequence orig line) then
      let new_corner := corner || !(match_sequence orig line)
      let cv := component_values pos line
      (cv.1.flatMap (fun a => cv.2.map (fun b => (a, b)))).filterMap
        (fun q => if q ≠ pos then some (q, new_corner) else none)
    else [])

/-! ## Breadth-first search (misc.find_connected_component)

The deque/dict worklist loop, fuelled (the source's `while` terminates
because the adjacency function ranges over finitely many vertices; the
fuel is sized, and proved, to outlast that bound for the railroad graph).
The explored dict is an insertion-ordered association list, the deque a
list popped at the head and appended at the tail. -/

def lookupLabel {V : Type} [DecidableEq V] : List (V × Bool) → V → Option Bool
  | [], _ => none
  | (k, l) :: rest, v => if k = v then some l else lookupLabel rest v

def containsKey {V : Type} [DecidableEq V] (e : List (V × Bool)) (v : V) : Bool :=
  (lookupLabel e v).isSome

/-- One adjacency result folded into the worklist state: unexplored
vertices are appended to both the frontier and the explored map. -/
def fcc_fold {V : Type} [DecidableEq V] (acc : List V × List (V × Bool))
    (p : V × Bool) : List V × List (V × Bool) :=
  if containsKey acc.2 p.1 then acc else (acc.1 ++ [p.1], acc.2 ++ [p])

def fcc_run {V : Type} [DecidableEq V] (f : V → Bool → List (V × Bool)) :
    Nat → List V → List (V × Bool) → List (V × Bool)
  | 0, _, explored => explored
  | _ + 1, [], explored => explored
  | fuel + 1, cur :: rest, explored =>
    let curLabel := (lookupLabel explored cur).getD false
    let st := (f cur curLabel).foldl fcc_fold (rest, explored)
    fcc_run f fuel st.1 st.2

def find_connected_component {V : Type} [DecidableEq V] (fuel : Nat) (vertex : V)
    (label : Bool) (f : V → Bool → List (V × Bool)) : List (V × Bool) :=
  fcc_run f fuel [vertex] [(vertex, label)]

/-! ## Railroad move search and move verification (LuzhanqiBoard)

Board occupancy is a function from raw coordinates to an optional
occupant; an occupant carries the identity key Python's
`BoardPiece.__eq__` compares (the initial position, abstracted to a
numeric id — every placed piece has a distinct one) and its side. -/

structure Occupant where
  pid : Nat
  friendly : Bool
deriving DecidableEq

/-- The `adjacent` closure inside `_railroad_moves`: an on-board vertex
occupied by a different piece yields nothing (the branch is blocked);
occupancy is read only under the on-board guard, exactly as the `and`
short-circuits in the source. -/
def railroad_adjacent (spec : Option PieceKind) (occ : (Int × Int) → Option Occupant)
    (pid : Nat) (orig : Int × Int) (pos : Int × Int) (corner : Bool) :
    List ((Int × Int) × Bool) :=
  if inSystemB pos &&
     (match occ pos with | none => false | some q => decide (q.pid ≠ pid)) then []
  else adjacent_railroad_moves spec orig pos corner

def railroad_fuel : Nat := 100

/-- `LuzhanqiBoard._railroad_moves` as a labelled association list: run
the search from the piece's position, then keep destinations other than
the origin that form valid coordinates (`to_result`). -/
def railroad_moves (spec : Option PieceKind) (occ : (Int × Int) → Option Occupant)
    (pid : Nat) (origin : Int × Int) : List ((Int × Int) × Bool) :=
  (find_connected_component railroad_fuel origin false
      (railroad_adjacent spec occ pid origin)).filterMap
    (fun m => if m.1 ≠ origin && inSystemB m.1 then some m else none)

def either_side (i : Int) : List Int := [i - 1, i + 1]

/-- `map_coord_components` with both components mapped (cross product). -/
def map_coord_components_xy (fx fy : Int → List Int) (coords : List (Int × Int)) :
    List (Int × Int) :=
  coords.flatMap (fun c =>
    ((fx c.1).flatMap (fun x => (fy c.2).map (fun y => (x, y)))).filter inSystemB)

/-- `LuzhanqiBoard._road_moves`: the four axis neighbors
(`map_coord_components_separately`, x map then y map), then the diagonal
neighbors kept when the origin or the destination space allows
diagonals. -/
def road_moves (pos : Int × Int) : List (Int × Int) :=
  (map_coord_components_x either_side [pos] ++ map_coord_components_y either_side [pos]) ++
  (map_coord_components_xy either_side either_side [pos]).filter
    (fun e => (position_spec pos).diagonals || (position_spec e).diagonals)

/-- `LuzhanqiBoard.can_move` on a piece's optional spec and its current
position. -/
def can_move (spec : Option PieceKind) (pos : Int × Int) : Bool :=
  if (match spec with | some k => k.sessile | none => false) then false
  else if (position_spec pos).quagmire then false
  else true

/-- `LuzhanqiBoard._verify_attack` for a mover of the given side. -/
def verify_attack (friendly : Bool) (occ : (Int × Int) → Option Occupant)
    (e : Int × Int) : Bool :=
  match occ e with
  | some q => (friendly != q.friendly) && !(position_spec e).safe
  | none => true

/-- `LuzhanqiBoard.position_match`: a `Space` matchval compares the
position's space, a `('*', predicate)` matchval applies the predicate to
the y component. -/
def position_match (p : Int × Int) (m : PlacementVal) : Bool :=
  match m with
  | .space s => decide (position_spec p = s)
  | .starY f => f p.2

inductive MoveType
  | INITIAL | ROAD | RAILROAD | RAILROAD_CORNER
deriving DecidableEq

/-- `LuzhanqiBoard.verify_move` for a piece described by its spec, side,
identity and current position (`none` before placement). -/
def verify_move (spec : Option PieceKind) (friendly : Bool)
    (occ : (Int × Int) → Option Occupant) (pid : Nat)
    (start : Option (Int × Int)) (e : Int × Int) : Option MoveType :=
  match start with
  | none =>
    if (occ e).isSome then none
    else if !(position_spec e).initial_placement then none
    else
      match spec with
      | some k =>
        match k.initial_placement with
        | some ipl => if position_match e ipl then some .INITIAL else none
        | none => some .INITIAL
      | none => some .INITIAL
  | some s =>
    if s = e || !can_move spec s || !verify_attack friendly occ e then none
    else if e ∈ road_moves s then some .ROAD
    else
      match lookupLabel (railroad_moves spec occ pid s) e with
      | some c => if c then some .RAILROAD_CORNER else some .RAILROAD
      | none => none

/-- The key set of `CoordinateSystemState.state`
(`coords_matching('*', '*')`): board occupancy lookups outside it raise
`KeyError` in the source. -/
def state_keys : List (Int × Int) :=
  coords_matching (fun _ => true) (fun _ => true)

/-- A concrete occupancy for the demonstration runs: the moving piece
(id 7) at (2,1), enemy blockers at (1,1), (2,3) and (2,-1), everything
else vacant. -/
def demo_occupancy : (Int × Int) → Option Occupant := fun p =>
  if p = (2, 1) then some ⟨7, true⟩
  else if p = (1, 1) then some ⟨8, false⟩
  else if p = (2, 3) then some ⟨9, false⟩
  else if p = (2, -1) then some ⟨10, false⟩
  else none

/-! ## Analysis devices for the worklist search

Definitions used only to state and prove properties of
`find_connected_component`: the vertices an adjacency function can reach,
shortest-path predicates, and the breadth-first level invariant.  The
adjacency functions of interest yield the same vertex set under either
label (only the attached labels differ), so the vertex graph is read off
at label `false`. -/

def keysOf {V : Type} (E : List (V × Bool)) : List V := E.map Prod.fst

def nodesOf {V : Type} (f : V → Bool → List (V × Bool)) (u : V) : List V :=
  (f u false).map Prod.fst

/-- Vertices reachable from `origin` in exactly `n` adjacency steps. -/
inductive ReachN {V : Type} (f : V → Bool → List (V × Bool)) (origin : V) :
    Nat → V → Prop
  | zero : ReachN f origin 0 origin
  | succ {n : Nat} {u v : V} : ReachN f origin n u → v ∈ nodesOf f u →
      ReachN f origin (n + 1) v

def distLE {V : Type} (f : V → Bool → List (V × Bool)) (origin : V) (k : Nat)
    (v : V) : Prop :=
  ∃ n ≤ k, ReachN f origin n v

/-- `v` is at graph distance exactly `k` from the origin. -/
def dEq {V : Type} (f : V → Bool → List (V × Bool)) (origin : V) (k : Nat)
    (v : V) : Prop :=
  distLE f origin k v ∧ ∀ m, distLE f origin m v → k ≤ m

/-- `u` has been taken off the frontier and expanded. -/
def expandedIn {V : Type} (q : List V) (E : List (V × Bool)) (u : V) : Prop :=
  u ∈ keysOf E ∧ u ∉ q

/-- Every explored vertex other than the origin was discovered, with its
recorded label, while expanding a vertex one level closer to the origin. -/
def pedigreeAt {V : Type} [DecidableEq V] (f : V → Bool → List (V × Bool))
    (origin : V) (q : List V) (E : List (V × Bool)) (v : V) : Prop :=
  v = origin ∨
  ∃ u ℓu ℓv k, expandedIn q E u ∧ lookupLabel E u = some ℓu ∧
    lookupLabel E v = some ℓv ∧ (v, ℓv) ∈ f u ℓu ∧
    dEq f origin k u ∧ dEq f origin (k + 1) v

/-- The breadth-first worklist invariant at level `k`: the frontier holds
a block of level-`k` vertices followed by a block of level-`k+1`
vertices, every vertex within distance `k` is already discovered, every
vertex strictly closer is already expanded, expanded vertices have all
their successors discovered, and every discovery has a pedigree. -/
def InvK {V : Type} [DecidableEq V] (f : V → Bool → List (V × Bool)) (origin : V)
    (k : Nat) (q : List V) (E : List (V × Bool)) : Prop :=
  (keysOf E).Nodup ∧ q.Nodup ∧ (∀ v ∈ q, v ∈ keysOf E) ∧
  lookupLabel E origin = some false ∧
  (∀ u, expandedIn q E u → ∀ v ∈ nodesOf f u, v ∈ keysOf E) ∧
  (∀ v ∈ keysOf E, pedigreeAt f origin q E v) ∧
  ∃ q1 q2, q = q1 ++ q2 ∧
    (∀ v ∈ q1, dEq f origin k v) ∧
    (∀ v ∈ q2, dEq f origin (k + 1) v) ∧
    (∀ w, distLE f origin k w → w ∈ keysOf E) ∧
    (∀ w m, m < k → distLE f origin m w → expandedIn q E w) ∧
    (q1 = [] → q2 = [])

def Inv {V : Type} [DecidableEq V] (f : V → Bool → List (V × Bool)) (origin : V)
    (q : List V) (E : List (V × Bool)) : Prop :=
  ∃ k, InvK f origin k q E

/-- A labelled walk: `origin` carries `false`, and each adjacency step
carries the label the adjacency function attaches.  A walk ending with
label `false` is exactly a corner-free railroad path (every step stays on
a line through the piece's position). -/
inductive LabReach {V : Type} (f : V → Bool → List (V × Bool)) (origin : V) :
    Bool → V → Prop
  | zero : LabReach f origin false origin
  | succ {ℓu ℓv : Bool} {u v : V} : LabReach f origin ℓu u →
      (v, ℓv) ∈ f u ℓu → LabReach f origin ℓv v

/-- All vertices lying on some expanded railroad line (the vertex
universe of the railroad search; includes the off-board mirror-seam
tuples). -/
def networkNodes : List (Int × Int) :=
  nonabsolute_railroad_lines.flatMap (fun l =>
    l.1.flatMap (fun a => l.2.map (fun b => (a, b))))

/-! ## Piece lifecycle and move application (BoardPiece, LuzhanqiBoard)

Python object identity is modelled by numeric piece ids (`pid`); the
references a `Movement`/`AttackInfo` holds to live piece objects become
the referenced piece's id plus a snapshot of its immutable `spec`.
Python exceptions (`RuntimeError`, `KeyError`, a `set.remove` miss)
become `Except.error`.  Sets of pieces become id lists; the board-state
dict becomes a function updated through `board_set`, which enforces the
dict's key set like `CoordinateSystemState.__setitem__` does. -/

structure AttackInfo where
  pieceId : Nat
  pieceSpec : Option PieceKind
  theoretical : Bool
  winner : Option Nat
deriving DecidableEq

structure Event where
  pieceId : Nat
  pieceSpec : Option PieceKind
  start : Option (Int × Int)
  dest : Int × Int
  turn : Nat
  attack : Option AttackInfo
  move_type : MoveType
deriving DecidableEq

structure BoardPiece where
  pid : Nat
  spec : Option PieceKind
  events : List Event
  movements : List Event
  attacks : List Event
  maybies : Option (List PieceKind)
deriving DecidableEq

/-- `BoardPiece._fatal_event`: `None` when the event is not an attack,
otherwise whether the declared winner is not this piece. -/
def fatal_event (p : BoardPiece) (e : Event) : Option Bool :=
  match e.attack with
  | none => none
  | some a => some (decide (a.winner ≠ some p.pid))

def BoardPiece.dead (p : BoardPiece) : Bool :=
  match p.events.getLast? with
  | none => false
  | some e => (fatal_event p e).getD false

def BoardPiece.initial (p : BoardPiece) : Option (Int × Int) :=
  p.movements.head?.map (fun e => e.dest)

def BoardPiece.position (p : BoardPiece) : Option (Int × Int) :=
  if p.dead then none
  else
    match p.initial with
    | none => none
    | some _ => p.movements.getLast?.map (fun e => e.dest)

/-- `BoardPiece.died_at` (a dead piece with no movements raises
`IndexError` in the source; the embedding returns `none` there, which
`check_pulse` then turns into the error the source would hit at its
`board[...]` lookup). -/
def BoardPiece.died_at (p : BoardPiece) : Option (Int × Int) :=
  if ¬ p.dead then none
  else
    match p.movements.getLast? with
    | none => none
    | some lm => if (fatal_event p lm).getD false then lm.start else some lm.dest

def BoardPiece.friendly (p : BoardPiece) : Bool := p.spec.isSome

/-- `BoardPiece._event_possible_for_type` for the piece with identity
`pid` (the only piece state the source function reads). -/
def event_possible_for_type (pid : Nat) (e : Event) (k : PieceKind) :
    Except String Bool :=
  if e.start = none then
    match k.initial_placement with
    | some ipl =>
      if ¬ position_match (absPos e.dest) ipl then .ok false else .ok true
    | none => .ok true
  else if k.sessile && decide (e.pieceId = pid) then .ok false
  else if !k.railroad_corners && decide (e.pieceId = pid) &&
      decide (e.move_type = MoveType.RAILROAD_CORNER) then .ok false
  else
    match e.attack with
    | some a => do
        let sim ←
          if e.pieceId = pid then
            simulate_attack e.pieceSpec (some k) a.pieceSpec none
          else
            simulate_attack e.pieceSpec none a.pieceSpec (some k)
        let simWinner : Option Nat :=
          match sim with
          | .attacker => some e.pieceId
          | .attacked => some a.pieceId
          | .neither => none
        .ok (decide (simWinner = a.winner))
    | none => .ok true

/-- The maybies update loop of `add_event`: keep the candidates the event
is possible for (the source collects the impossible ones in `to_remove`
and subtracts the set; the remaining membership is the same). -/
def filter_possible (pid : Nat) (e : Event) :
    List PieceKind → Except String (List PieceKind)
  | [] => .ok []
  | k :: rest => do
    let b ← event_possible_for_type pid e k
    let r ← filter_possible pid e rest
    .ok (if b then k :: r else r)

def add_event (p : BoardPiece) (e : Event) : Except String BoardPiece :=
  if p.dead then
    .error "This piece is dead - nothing further can happen to it"
  else
    (if e.pieceId = p.pid then
      Except.ok { p with movements := p.movements ++ [e] }
    else
      match e.attack with
      | some a =>
        if a.pieceId = p.pid then
          if a.theoretical then
            Except.error "A theoretical attack cannot be an event!"
          else Except.ok { p with attacks := p.attacks ++ [e] }
        else Except.error "This event is not relevant to this piece"
      | none => Except.error "This event is not relevant to this piece") >>=
    fun p1 =>
      let p2 := { p1 with events := p1.events ++ [e] }
      match p2.maybies with
      | none => .ok p2
      | some l =>
        filter_possible p.pid e l >>= fun l2 =>
        .ok { p2 with maybies := some l2 }

/-- The piece value `add_event` produces for the mover itself when it has
no candidate set: the event is appended to `movements` and `events`. -/
def moved_piece (p : BoardPiece) (e : Event) : BoardPiece :=
  { p with movements := p.movements ++ [e], events := p.events ++ [e] }

/-- Repeated `add_event` (an analysis device for stating properties of a
piece's whole event history). -/
def add_events (p : BoardPiece) : List Event → Except String BoardPiece
  | [] => .ok p
  | e :: rest => do
    let p1 ← add_event p e
    add_events p1 rest

structure GameState where
  board : (Int × Int) → Option Nat
  reg : Nat → Option BoardPiece
  friendly_pieces : List Nat
  friendly_pieces_dead : List Nat
  enemy_pieces : List Nat
  enemy_pieces_dead : List Nat
  turn : Nat

/-- A board-state dict write (`CoordinateSystemState.__setitem__`):
positions outside the key set raise. -/
def board_set (b : (Int × Int) → Option Nat) (pos : Int × Int)
    (v : Option Nat) : Except String ((Int × Int) → Option Nat) :=
  if inSystemB pos then .ok (fun q => if q = pos then v else b q)
  else .error "KeyError"

/-- `set.remove`: removing an absent element raises. -/
def remove_from (l : List Nat) (x : Nat) : Except String (List Nat) :=
  if x ∈ l then .ok (l.erase x) else .error "KeyError"

/-- `LuzhanqiBoard._check_pulse` on the updated piece value. -/
def check_pulse (s : GameState) (p : BoardPiece) : Except String GameState :=
  if ¬ p.dead then .ok s
  else
    (match p.died_at with
     | some pos => Except.ok pos
     | none => Except.error "KeyError") >>= fun pos =>
    board_set s.board pos none >>= fun b =>
    if p.friendly then
      remove_from s.friendly_pieces p.pid >>= fun living =>
      .ok { s with board := b, friendly_pieces := living,
                   friendly_pieces_dead := s.friendly_pieces_dead ++ [p.pid] }
    else
      remove_from s.enemy_pieces p.pid >>= fun living =>
      .ok { s with board := b, enemy_pieces := living,
                   enemy_pieces_dead := s.enemy_pieces_dead ++ [p.pid] }

/-- `LuzhanqiBoard._move_on_board`. -/
def move_on_board (s : GameState) (m : Event) : Except String GameState :=
  if (s.board m.dest).isSome then
    .error "Cannot move onto an occupied space"
  else
    (match m.start with
     | some st => Except.ok st
     | none => Except.error "KeyError") >>= fun st =>
    board_set s.board st none >>= fun b1 =>
    board_set b1 m.dest (some m.pieceId) >>= fun b2 =>
    .ok { s with board := b2 }

/-- `LuzhanqiBoard.get` (the dict raises off the key set). -/
def get (s : GameState) (pos : Int × Int) : Except String (Option Nat) :=
  if inSystemB pos then .ok (s.board pos) else .error "KeyError"

/-- `LuzhanqiBoard.add_move`: append the event to the mover (and, on an
attack, to the defender), bury the dead, move the surviving mover, and
advance the turn counter. -/
def add_move (s : GameState) (m : Event) : Except String GameState :=
  (match s.reg m.pieceId with
   | some p => Except.ok p
   | none => Except.error "unknown piece") >>= fun moved =>
  add_event moved m >>= fun moved1 =>
  match m.attack with
  | some a =>
    (match s.reg a.pieceId with
     | some p => Except.ok p
     | none => Except.error "unknown piece") >>= fun attacked =>
    add_event attacked m >>= fun attacked1 =>
    let s1 : GameState := { s with reg := (fun i =>
      if i = m.pieceId then some moved1
      else if i = a.pieceId then some attacked1
      else s.reg i) }
    check_pulse s1 moved1 >>= fun s2 =>
    check_pulse s2 attacked1 >>= fun s3 =>
    (if ¬ moved1.dead then move_on_board s3 m else Except.ok s3) >>= fun s4 =>
    .ok { s4 with turn := s4.turn + 1 }
  | none =>
    let s1 : GameState := { s with reg := (fun i =>
      if i = m.pieceId then some moved1 else s.reg i) }
    (if ¬ moved1.dead then move_on_board s1 m else Except.ok s1) >>= fun s2 =>
    .ok { s2 with turn := s2.turn + 1 }

/-! Concrete demonstration data for the piece-lifecycle theorems: a fresh
unidentified enemy piece, its initial placement event at (1, -5), and the
piece value `add_event` produces for it (the flag archetype is filtered
out because (1, -5) is not a headquarters square). -/

def demo_enemy : BoardPiece :=
  { pid := 1, spec := none, events := [], movements := [], attacks := [],
    maybies := some pieces }

def demo_placement : Event :=
  { pieceId := 1, pieceSpec := none, start := none, dest := (1, -5),
    turn := 0, attack := none, move_type := .INITIAL }

def demo_enemy_placed : BoardPiece :=
  { pid := 1, spec := none, events := [demo_placement],
    movements := [demo_placement], attacks := [],
    maybies := some [.MARSHAL, .GENERAL, .LIEUT_GENERAL, .BRIG_GENERAL,
      .COLONEL, .MAJOR, .CAPTAIN, .COMMANDER, .ENGINEER, .BOMB, .LANDMINE] }

/-! A concrete two-piece game: a friendly bomb at (0, 1), an unidentified
enemy piece at (0, 2), and the friendly bomb attacking the enemy piece. -/

def demo_bomb_attacker : BoardPiece :=
  { pid := 0, spec := some .BOMB, events := [], movements := [],
    attacks := [], maybies := none }

def demo_defender_move : Event :=
  { pieceId := 1, pieceSpec := none, start := none, dest := (0, 2),
    turn := 0, attack := none, move_type := .INITIAL }

def demo_defender : BoardPiece :=
  { pid := 1, spec := none, events := [demo_defender_move],
    movements := [demo_defender_move], attacks := [],
    maybies := some pieces }

def demo_attack_info : AttackInfo :=
  { pieceId := 1, pieceSpec := none, theoretical := false, winner := none }

def demo_bomb_move : Event :=
  { pieceId := 0, pieceSpec := some .BOMB, start := some (0, 1),
    dest := (0, 2), turn := 1, attack := some demo_attack_info,
    move_type := .ROAD }

def demo_state : GameState :=
  { board := fun q => if q = (0, 1) then some 0
             else if q = (0, 2) then some 1 else none,
    reg := fun i => if i = 0 then some demo_bomb_attacker
           else if i = 1 then some demo_defender else none,
    friendly_pieces := [0], friendly_pieces_dead := [],
    enemy_pieces := [1], enemy_pieces_dead := [], turn := 1 }

def demo_enemy_road_move : Event :=
  { pieceId := 1, pieceSpec := none, start := some (0, 2), dest := (0, 3),
    turn := 1, attack := none, move_type := .ROAD }

end Luzhanqi

namespace Luzhanqi

/-- C9: for every axis (odd or even size) the index/value conversions are
mutual inverses on `[0, size)` and on the axis's value set, and `0` is a
valid axis value iff the size is odd. -/
theorem axis_index_value_at_inverses (n : Nat) :
    (∀ i : Nat, i < n →
      ∃ v : Int, axisValueAt n i = some v ∧ axisIndex n v = some (i : Int)) ∧
    (∀ v : Int, axisContains n v = true →
      ∃ i : Int, axisIndex n v = some i ∧ 0 ≤ i ∧ i < (n : Int) ∧
        axisValueAt n i.toNat = some v) ∧
    (axisContains n 0 = true ↔ n % 2 = 1) := by
  refine ⟨?_, ?_, ?_⟩
  · intro i hi
    by_cases hlt : i < n / 2
    · refine ⟨-((n / 2 : Nat) : Int) + i, ?_, ?_⟩
      · simp only [axisValueAt, if_pos hi, if_pos hlt]
      · have h0 : (-((n / 2 : Nat) : Int) + i) < 0 := by omega
        have hc : axisContains n (-((n / 2 : Nat) : Int) + i) = true := by
          simp only [axisContains]
          rw [if_neg (by omega)]
          simp only [Bool.and_eq_true, decide_eq_true_eq]
          omega
        simp only [axisIndex, hc, if_true]
        rw [if_neg (by omega), if_pos h0]
        congr 1
        omega
    · by_cases hodd : n % 2 = 1
      · have hc0 : axisContains n 0 = true := by
          simp [axisContains, hodd]
        by_cases hz : i - n / 2 = 0
        · refine ⟨0, ?_, ?_⟩
          · simp only [axisValueAt, if_pos hi, if_neg hlt, hc0, if_true, if_pos hz]
          · simp only [axisIndex, hc0, if_true, if_pos rfl]
            congr 1
            omega
        · have hbound : i - n / 2 - 1 < n / 2 := by omega
          refine ⟨((i - n / 2 - 1 : Nat) : Int) + 1, ?_, ?_⟩
          · simp only [axisValueAt, if_pos hi, if_neg hlt, hc0, if_true, if_neg hz,
              if_pos hbound]
          · have hc : axisContains n (((i - n / 2 - 1 : Nat) : Int) + 1) = true := by
              simp only [axisContains]
              rw [if_neg (by omega)]
              simp only [Bool.and_eq_true, decide_eq_true_eq]
              omega
            simp only [axisIndex, hc, if_true]
            rw [if_neg (by omega), if_neg (by omega), if_pos hc0]
            congr 1
            omega
      · have hc0 : axisContains n 0 = false := by
          simp only [axisContains, if_pos rfl]
          simp
          omega
        have hbound : i - n / 2 < n / 2 := by omega
        refine ⟨((i - n / 2 : Nat) : Int) + 1, ?_, ?_⟩
        · simp only [axisValueAt, if_pos hi, if_neg hlt, hc0]
          rw [if_neg (by simp), if_pos hbound]
        · have hc : axisContains n (((i - n / 2 : Nat) : Int) + 1) = true := by
            simp only [axisContains]
            rw [if_neg (by omega)]
            simp only [Bool.and_eq_true, decide_eq_true_eq]
            omega
          simp only [axisIndex, hc, if_true]
          rw [if_neg (by omega), if_neg (by omega), if_neg (by simp [hc0]), ]
          congr 1
          omega
  · intro v hv
    have hch := hv
    simp only [axisContains] at hch
    by_cases hz : v = 0
    · subst hz
      rw [if_pos rfl] at hch
      simp only [decide_eq_true_eq] at hch
      refine ⟨((n / 2 : Nat) : Int), ?_, by omega, by omega, ?_⟩
      · simp only [axisIndex, hv, if_true, if_pos rfl]
      · have hlt : ¬ (((n / 2 : Nat) : Int).toNat < n / 2) := by omega
        simp only [axisValueAt]
        rw [if_pos (by omega), if_neg hlt, if_pos hv, if_pos (by omega)]
    · rw [if_neg hz] at hch
      simp only [Bool.and_eq_true, decide_eq_true_eq] at hch
      by_cases hneg : v < 0
      · refine ⟨((n / 2 : Nat) : Int) + v, ?_, by omega, by omega, ?_⟩
        · simp only [axisIndex, hv, if_true]
          rw [if_neg hz, if_pos hneg]
        · simp only [axisValueAt]
          rw [if_pos (by omega), if_pos (by omega)]
          congr 1
          omega
      · by_cases hodd : n % 2 = 1
        · have hc0 : axisContains n 0 = true := by simp [axisContains, hodd]
          refine ⟨((n / 2 : Nat) : Int) + v, ?_, by omega, by omega, ?_⟩
          · simp only [axisIndex, hv, if_true]
            rw [if_neg hz, if_neg hneg, if_pos hc0]
          · simp only [axisValueAt]
            rw [if_pos (by omega), if_neg (by omega), if_pos hc0,
              if_neg (by omega), if_pos (by omega)]
            congr 1
            omega
        · have hc0 : axisContains n 0 = false := by
            simp only [axisContains, if_pos rfl]
            simp
            omega
          refine ⟨((n / 2 : Nat) : Int) + v - 1, ?_, by omega, by omega, ?_⟩
          · simp only [axisIndex, hv, if_true]
            rw [if_neg hz, if_neg hneg, if_neg (by simp [hc0])]
          · simp only [axisValueAt]
            rw [if_pos (by omega), if_neg (by omega), hc0]
            rw [if_neg (by simp), if_pos (by omega)]
            congr 1
            omega
  · have : axisContains n 0 = decide (n % 2 ≠ 0) := by simp [axisContains]
    rw [this]
    simp only [decide_eq_true_eq]
    omega

/-- C9 witness: the inverse laws evaluated on the concrete 5-element axis
(the board's x axis) at index 3 and value 2. -/
theorem axis_index_value_at_inverses_witness :
    (∃ v : Int, axisValueAt 5 3 = some v ∧ axisIndex 5 v = some (3 : Int)) ∧
    (∃ i : Int, axisIndex 5 2 = some i ∧ 0 ≤ i ∧ i < (5 : Int) ∧
      axisValueAt 5 i.toNat = some 2) ∧
    (axisContains 5 0 = true ↔ 5 % 2 = 1) :=
  ⟨(axis_index_value_at_inverses 5).1 3 (by decide),
   (axis_index_value_at_inverses 5).2.1 2 (by decide),
   (axis_index_value_at_inverses 5).2.2⟩

/-- C1: `simulate_attack` follows the specified decision chain on every
pair of catalog archetypes: a sessile attacker is a precondition failure
(no winner is even computed); if both archetypes carry a rank the higher
rank wins and equal ranks tie; otherwise a bomb attacker gives no winner;
otherwise against a bomb defender the attacker is not the winner (so the
attack is fatal to it) unless the defender is a sessile bomb and the
attacker defeats sessile bombs, in which case the attacker wins; otherwise
against the flag the attacker wins. -/
theorem simulate_attack_decision_chain :
    ∀ a ∈ pieces, ∀ d ∈ pieces,
      (a.sessile = true →
        okWinner (simulate_attack none (some a) none (some d)) = none) ∧
      (a.order.isSome = true → d.order.isSome = true →
        simulate_attack none (some a) none (some d) =
          .ok (if d.order.getD 0 < a.order.getD 0 then .attacker
               else if a.order.getD 0 < d.order.getD 0 then .attacked
               else .neither)) ∧
      (a.sessile = false → (a.order.isSome && d.order.isSome) = false → a.bomb = true →
        simulate_attack none (some a) none (some d) = .ok .neither) ∧
      (a.sessile = false → (a.order.isSome && d.order.isSome) = false → a.bomb = false →
        d.bomb = true →
        if d.sessile && a.defeats_sessile_bombs then
          simulate_attack none (some a) none (some d) = .ok .attacker
        else
          okWinner (simulate_attack none (some a) none (some d)) ≠ none ∧
          okWinner (simulate_attack none (some a) none (some d)) ≠ some .attacker) ∧
      (a.sessile = false → (a.order.isSome && d.order.isSome) = false → a.bomb = false →
        d.bomb = false → d = .FLAG →
        simulate_attack none (some a) none (some d) = .ok .attacker) := by
  have h1 : ∀ a ∈ pieces, ∀ d ∈ pieces, a.sessile = true →
      okWinner (simulate_attack none (some a) none (some d)) = none := by decide
  have h2 : ∀ a ∈ pieces, ∀ d ∈ pieces, a.order.isSome = true → d.order.isSome = true →
      simulate_attack none (some a) none (some d) =
        .ok (if d.order.getD 0 < a.order.getD 0 then .attacker
             else if a.order.getD 0 < d.order.getD 0 then .attacked
             else .neither) := by decide
  have h3 : ∀ a ∈ pieces, ∀ d ∈ pieces, a.sessile = false →
      (a.order.isSome && d.order.isSome) = false → a.bomb = true →
      simulate_attack none (some a) none (some d) = .ok .neither := by decide
  have h4 : ∀ a ∈ pieces, ∀ d ∈ pieces, a.sessile = false →
      (a.order.isSome && d.order.isSome) = false → a.bomb = false → d.bomb = true →
      if d.sessile && a.defeats_sessile_bombs then
        simulate_attack none (some a) none (some d) = .ok .attacker
      else
        okWinner (simulate_attack none (some a) none (some d)) ≠ none ∧
        okWinner (simulate_attack none (some a) none (some d)) ≠ some .attacker := by
    decide
  have h5 : ∀ a ∈ pieces, ∀ d ∈ pieces, a.sessile = false →
      (a.order.isSome && d.order.isSome) = false → a.bomb = false → d.bomb = false →
      d = .FLAG → simulate_attack none (some a) none (some d) = .ok .attacker := by
    decide
  exact fun a ha d hd =>
    ⟨h1 a ha d hd, h2 a ha d hd, h3 a ha d hd, h4 a ha d hd, h5 a ha d hd⟩

/-- C1 witness: the chain applied to concrete archetypes — Field Marshal
(rank 9) attacking Engineer (rank 1) wins, and Captain attacking a
landmine (a sessile bomb, Captain does not defeat sessile bombs) is not
the winner. -/
theorem simulate_attack_decision_chain_witness :
    simulate_attack none (some .MARSHAL) none (some .ENGINEER) = .ok .attacker ∧
    okWinner (simulate_attack none (some .CAPTAIN) none (some .LANDMINE)) ≠
      some .attacker := by
  refine ⟨?_, ?_⟩
  · have h := (simulate_attack_decision_chain .MARSHAL (by decide) .ENGINEER
      (by decide)).2.1 rfl rfl
    simpa using h
  · exact ((simulate_attack_decision_chain .CAPTAIN (by decide) .LANDMINE
      (by decide)).2.2.2.1 rfl rfl rfl rfl).2

/-- C3 counterexample: the claim says every non-sessile attacker archetype,
including the bomb, beats the flag; but `simulate_attack`'s bomb-attacker
branch precedes its flag check, so a bomb attacking the flag yields no
winner rather than an attacker win. -/
theorem bomb_vs_flag_not_attacker_win :
    PieceKind.BOMB.sessile = false ∧
    simulate_attack none (some .BOMB) none (some .FLAG) = .ok .neither ∧
    simulate_attack none (some .BOMB) none (some .FLAG) ≠ .ok .attacker := by
  decide

/-- C3 (amended): every non-sessile, non-bomb catalog archetype attacking
the flag archetype wins. -/
theorem nonsessile_nonbomb_vs_flag_attacker_wins :
    ∀ a ∈ pieces, a.sessile = false → a.bomb = false →
      simulate_attack none (some a) none (some .FLAG) = .ok .attacker := by
  decide

/-- C3 witness: the amended statement applied to the Engineer. -/
theorem nonsessile_nonbomb_vs_flag_attacker_wins_witness :
    simulate_attack none (some .ENGINEER) none (some .FLAG) = .ok .attacker :=
  nonsessile_nonbomb_vs_flag_attacker_wins .ENGINEER (by decide) rfl rfl

/-- C7: `initial_positions` yields exactly 25 distinct coordinates, and
`initial_enemy_positions` yields exactly 25 distinct coordinates, disjoint
from the friendly set, each one the y-mirror of a friendly initial
position. -/
theorem initial_positions_mirror_counts :
    initial_positions.length = 25 ∧ initial_positions.Nodup ∧
    initial_enemy_positions.length = 25 ∧ initial_enemy_positions.Nodup ∧
    (∀ p ∈ initial_enemy_positions, p ∉ initial_positions) ∧
    (∀ p ∈ initial_enemy_positions, (p.1, -p.2) ∈ initial_positions) := by
  decide

/-- C7 witness: the mirror and disjointness facts applied at the concrete
enemy cell (0, -1). -/
theorem initial_positions_mirror_counts_witness :
    (((0 : Int), (1 : Int)) ∈ initial_positions) ∧
    (((0 : Int), (-1 : Int)) ∉ initial_positions) :=
  ⟨by
    have h := initial_positions_mirror_counts.2.2.2.2.2 (0, -1) (by decide)
    simpa using h,
   initial_positions_mirror_counts.2.2.2.2.1 (0, -1) (by decide)⟩

theorem axisValues_five : axisValues 5 = [-2, -1, 0, 1, 2] := by decide

theorem axisValues_twelve :
    axisValues 12 = [-6, -5, -4, -3, -2, -1, 1, 2, 3, 4, 5, 6] := by decide

theorem axisContains_five_iff (v : Int) :
    axisContains 5 v = true ↔ v ∈ axisValues 5 := by
  rw [axisValues_five]
  by_cases h : v = 0
  · subst h; decide
  · simp only [axisContains, if_neg h, Bool.and_eq_true, decide_eq_true_eq,
      List.mem_cons, List.not_mem_nil, or_false]
    omega

theorem axisContains_twelve_iff (v : Int) :
    axisContains 12 v = true ↔ v ∈ axisValues 12 := by
  rw [axisValues_twelve]
  by_cases h : v = 0
  · subst h; decide
  · simp only [axisContains, if_neg h, Bool.and_eq_true, decide_eq_true_eq,
      List.mem_cons, List.not_mem_nil, or_false]
    omega

/-- Coordinate validity coincides with membership in the board-state
dictionary's key set: exactly the lookups the search's on-board guard
permits are the ones the dictionary can serve. -/
theorem inSystemB_iff_mem_state_keys (p : Int × Int) :
    inSystemB p = true ↔ p ∈ state_keys := by
  rcases p with ⟨a, b⟩
  simp only [state_keys, coords_matching, List.mem_flatMap, List.mem_map,
    List.mem_filter, Prod.mk.injEq, inSystemB, Bool.and_eq_true]
  constructor
  · rintro ⟨h1, h2⟩
    exact ⟨a, ⟨(axisContains_five_iff a).1 h1, trivial⟩, b,
      ⟨(axisContains_twelve_iff b).1 h2, trivial⟩, rfl, rfl⟩
  · rintro ⟨x, ⟨hx, -⟩, y, ⟨hy, -⟩, h1, h2⟩
    subst h1; subst h2
    exact ⟨(axisContains_five_iff _).2 hx, (axisContains_twelve_iff _).2 hy⟩

/-- Every destination the railroad search reports is a valid coordinate
distinct from the searching piece's position (the `to_result` filter). -/
theorem railroad_moves_mem {spec : Option PieceKind}
    {occ : (Int × Int) → Option Occupant} {pid : Nat} {origin : Int × Int}
    {q : (Int × Int) × Bool} (h : q ∈ railroad_moves spec occ pid origin) :
    inSystemB q.1 = true ∧ q.1 ≠ origin := by
  simp only [railroad_moves, List.mem_filterMap] at h
  obtain ⟨m, -, he⟩ := h
  split at he
  · rename_i hc
    cases he
    simp only [Bool.and_eq_true, decide_eq_true_eq] at hc
    exact ⟨hc.2, hc.1⟩
  · exact absurd he (by simp)

/-- C10: the railroad search traverses off-board coordinates (mirror
seams like (2,0)) but reads board occupancy only at coordinates the
board-state dictionary actually has keys for (so no lookup error is
possible), and every destination it reports is a valid on-board
coordinate distinct from the piece's position. -/
theorem railroad_search_off_board_safe :
    (∀ p : Int × Int, inSystemB p = true ↔ p ∈ state_keys) ∧
    (∀ (spec : Option PieceKind) (occ : (Int × Int) → Option Occupant)
        (pid : Nat) (origin : Int × Int),
      ∀ q ∈ railroad_moves spec occ pid origin,
        inSystemB q.1 = true ∧ q.1 ≠ origin) ∧
    (containsKey
        (find_connected_component railroad_fuel ((2 : Int), (1 : Int)) false
          (railroad_adjacent none demo_occupancy 7 (2, 1)))
        ((2 : Int), (0 : Int)) = true ∧
      inSystemB ((2 : Int), (0 : Int)) = false) :=
  ⟨inSystemB_iff_mem_state_keys,
   fun _ _ _ _ _ hq => railroad_moves_mem hq,
   by decide⟩

/-- C10 witness: the reported-destination guarantees at a concrete run —
the engineer at (2,1) on the demonstration board reaches (2,2), which is
on board and not the origin. -/
theorem railroad_search_off_board_safe_witness :
    inSystemB ((2 : Int), (2 : Int)) = true ∧ ((2 : Int), (2 : Int)) ≠ ((2 : Int), (1 : Int)) := by
  have h := railroad_search_off_board_safe.2.1 (some .ENGINEER) demo_occupancy 7
    (2, 1) ((2, 2), false) (by decide)
  simpa using h

theorem mem_keysOf {V : Type} {E : List (V × Bool)} {v : V} :
    v ∈ keysOf E ↔ ∃ ℓ, (v, ℓ) ∈ E := by
  simp only [keysOf, List.mem_map]
  constructor
  · rintro ⟨⟨a, b⟩, hm, rfl⟩
    exact ⟨b, hm⟩
  · rintro ⟨ℓ, hm⟩
    exact ⟨(v, ℓ), hm, rfl⟩

theorem lookupLabel_isSome {V : Type} [DecidableEq V] {E : List (V × Bool)} {v : V} :
    (lookupLabel E v).isSome = true ↔ v ∈ keysOf E := by
  induction E with
  | nil => simp [lookupLabel, keysOf]
  | cons p rest ih =>
    rcases p with ⟨a, b⟩
    by_cases h : a = v
    · subst h
      simp [lookupLabel, keysOf]
    · simp only [lookupLabel, if_neg h, keysOf, List.map_cons, List.mem_cons]
      rw [ih]
      simp only [keysOf]
      constructor
      · exact fun hm => Or.inr hm
      · rintro (hm | hm)
        · exact absurd hm.symm h
        · exact hm

theorem containsKey_iff {V : Type} [DecidableEq V] {E : List (V × Bool)} {v : V} :
    containsKey E v = true ↔ v ∈ keysOf E := by
  rw [containsKey, lookupLabel_isSome]

theorem lookupLabel_append_left {V : Type} [DecidableEq V] {E1 : List (V × Bool)}
    (E2 : List (V × Bool)) {v : V} (h : v ∈ keysOf E1) :
    lookupLabel (E1 ++ E2) v = lookupLabel E1 v := by
  induction E1 with
  | nil => simp [keysOf] at h
  | cons p rest ih =>
    rcases p with ⟨a, b⟩
    by_cases ha : a = v
    · subst ha
      simp [lookupLabel]
    · simp only [List.cons_append, lookupLabel, if_neg ha]
      apply ih
      simp only [keysOf, List.map_cons, List.mem_cons] at h
      rcases h with h | h
      · exact absurd h.symm ha
      · exact h

theorem lookupLabel_append_right {V : Type} [DecidableEq V] {E1 : List (V × Bool)}
    (E2 : List (V × Bool)) {v : V} (h : v ∉ keysOf E1) :
    lookupLabel (E1 ++ E2) v = lookupLabel E2 v := by
  induction E1 with
  | nil => simp
  | cons p rest ih =>
    rcases p with ⟨a, b⟩
    simp only [keysOf, List.map_cons, List.mem_cons, not_or] at h
    have ha : a ≠ v := fun hh => h.1 hh.symm
    rw [List.cons_append, lookupLabel, if_neg ha]
    exact ih h.2

theorem lookupLabel_cons {V : Type} [DecidableEq V] (a : V) (b : Bool)
    (rest : List (V × Bool)) (v : V) :
    lookupLabel ((a, b) :: rest) v = if a = v then some b else lookupLabel rest v :=
  rfl

theorem lookupLabel_mem {V : Type} [DecidableEq V] {E : List (V × Bool)} {v : V}
    {ℓ : Bool} (h : lookupLabel E v = some ℓ) : (v, ℓ) ∈ E := by
  induction E with
  | nil => simp [lookupLabel] at h
  | cons p rest ih =>
    rcases p with ⟨a, b⟩
    rw [lookupLabel] at h
    by_cases ha : a = v
    · rw [if_pos ha] at h
      injection h with h
      subst ha; subst h
      exact List.mem_cons_self _ _
    · rw [if_neg ha] at h
      exact List.mem_cons_of_mem _ (ih h)

theorem mem_lookupLabel {V : Type} [DecidableEq V] {E : List (V × Bool)} {v : V}
    {ℓ : Bool} (hnd : (keysOf E).Nodup) (h : (v, ℓ) ∈ E) :
    lookupLabel E v = some ℓ := by
  induction E with
  | nil => simp at h
  | cons p rest ih =>
    rcases p with ⟨a, b⟩
    simp only [keysOf, List.map_cons, List.nodup_cons] at hnd
    rcases List.mem_cons.1 h with h | h
    · cases h
      simp [lookupLabel]
    · have hav : a ≠ v := by
        intro hh
        subst hh
        exact hnd.1 (mem_keysOf.2 ⟨ℓ, h⟩)
      simp only [lookupLabel, if_neg hav]
      exact ih hnd.2 h

/-- Folding an adjacency result into the worklist state appends exactly
the vertices not yet explored, in order, to both the frontier and the
explored map. -/
theorem fcc_foldl_spec {V : Type} [DecidableEq V] (out : List (V × Bool)) :
    ∀ (q0 : List V) (E0 : List (V × Bool)), (keysOf E0).Nodup →
    ∃ Enew : List (V × Bool),
      (out.foldl fcc_fold (q0, E0)).2 = E0 ++ Enew ∧
      (out.foldl fcc_fold (q0, E0)).1 = q0 ++ Enew.map Prod.fst ∧
      (keysOf (E0 ++ Enew)).Nodup ∧
      (∀ p ∈ Enew, p ∈ out ∧ p.1 ∉ keysOf E0) ∧
      (∀ p ∈ out, p.1 ∈ keysOf (E0 ++ Enew)) := by
  induction out with
  | nil =>
    intro q0 E0 hnd
    exact ⟨[], by simp, by simp, by simpa using hnd, by simp, by simp⟩
  | cons p out ih =>
    intro q0 E0 hnd
    by_cases hc : containsKey E0 p.1 = true
    · have hstep : fcc_fold (q0, E0) p = (q0, E0) := by
        simp [fcc_fold, hc]
      obtain ⟨Enew, h1, h2, h3, h4, h5⟩ := ih q0 E0 hnd
      refine ⟨Enew, ?_, ?_, h3, ?_, ?_⟩
      · simpa [List.foldl_cons, hstep] using h1
      · simpa [List.foldl_cons, hstep] using h2
      · exact fun r hr => ⟨List.mem_cons_of_mem _ (h4 r hr).1, (h4 r hr).2⟩
      · intro r hr
        rcases List.mem_cons.1 hr with hr | hr
        · subst hr
          have := containsKey_iff.1 hc
          simp only [keysOf, List.map_append, List.mem_append]
          exact Or.inl this
        · exact h5 r hr
    · have hc' : p.1 ∉ keysOf E0 := fun hm => hc (containsKey_iff.2 hm)
      have hstep : fcc_fold (q0, E0) p = (q0 ++ [p.1], E0 ++ [p]) := by
        simp only [fcc_fold]
        rw [if_neg hc]
      have hnd' : (keysOf (E0 ++ [p])).Nodup := by
        simp only [keysOf, List.map_append, List.map_cons, List.map_nil]
        rw [List.nodup_append]
        refine ⟨hnd, List.nodup_singleton _, ?_⟩
        intro a ha hb
        simp only [List.mem_singleton] at hb
        subst hb
        exact hc' ha
      obtain ⟨Enew, h1, h2, h3, h4, h5⟩ := ih (q0 ++ [p.1]) (E0 ++ [p]) hnd'
      refine ⟨p :: Enew, ?_, ?_, ?_, ?_, ?_⟩
      · rw [List.foldl_cons, hstep, h1, List.append_assoc]
        rfl
      · rw [List.foldl_cons, hstep, h2, List.append_assoc]
        rfl
      · have : E0 ++ p :: Enew = (E0 ++ [p]) ++ Enew := by
          rw [List.append_assoc]
          rfl
        rw [this]
        exact h3
      · intro r hr
        rcases List.mem_cons.1 hr with hr | hr
        · subst hr
          exact ⟨List.mem_cons_self _ _, hc'⟩
        · refine ⟨List.mem_cons_of_mem _ (h4 r hr).1, ?_⟩
          have := (h4 r hr).2
          simp only [keysOf, List.map_append, List.mem_append] at this
          intro hm
          exact this (Or.inl hm)
      · intro r hr
        have hassoc : E0 ++ p :: Enew = (E0 ++ [p]) ++ Enew := by
          rw [List.append_assoc]
          rfl
        rcases List.mem_cons.1 hr with hr | hr
        · subst hr
          rw [hassoc]
          simp only [keysOf, List.map_append, List.mem_append, List.map_cons,
            List.map_nil, List.mem_singleton]
          exact Or.inl (Or.inr trivial)
        · rw [hassoc]
          exact h5 r hr

theorem ReachN_zero_eq {V : Type} {f : V → Bool → List (V × Bool)} {origin v : V}
    (h : ReachN f origin 0 v) : v = origin := by
  cases h; rfl

theorem ReachN_succ_inv {V : Type} {f : V → Bool → List (V × Bool)} {origin : V}
    {n : Nat} {v : V} (h : ReachN f origin (n + 1) v) :
    ∃ u, ReachN f origin n u ∧ v ∈ nodesOf f u := by
  cases h with
  | succ hu hv => exact ⟨_, hu, hv⟩

theorem distLE_mono {V : Type} {f : V → Bool → List (V × Bool)} {origin : V}
    {k k' : Nat} {v : V} (h : k ≤ k') (hd : distLE f origin k v) :
    distLE f origin k' v := by
  obtain ⟨n, hn, hr⟩ := hd
  exact ⟨n, le_trans hn h, hr⟩

theorem dEq_unique {V : Type} {f : V → Bool → List (V × Bool)} {origin : V}
    {k k' : Nat} {v : V} (h1 : dEq f origin k v) (h2 : dEq f origin k' v) :
    k = k' :=
  le_antisymm (h1.2 _ h2.1) (h2.2 _ h1.1)

theorem dEq_reach {V : Type} {f : V → Bool → List (V × Bool)} {origin : V}
    {k : Nat} {v : V} (h : dEq f origin k v) : ReachN f origin k v := by
  obtain ⟨⟨n, hn, hr⟩, hmin⟩ := h
  have hk : k ≤ n := hmin n ⟨n, le_refl n, hr⟩
  have : n = k := le_antisymm hn hk
  exact this ▸ hr

/-- The invariant holds at the worklist's initial state. -/
theorem InvK_init {V : Type} [DecidableEq V] (f : V → Bool → List (V × Bool))
    (origin : V) : InvK f origin 0 [origin] [(origin, false)] := by
  refine ⟨by simp [keysOf], by simp, by simp [keysOf], by simp [lookupLabel],
    ?_, ?_, [origin], [], rfl, ?_, by simp, ?_, by simp, fun _ => rfl⟩
  · rintro u ⟨hu, hq⟩
    simp only [keysOf, List.map_cons, List.map_nil, List.mem_singleton] at hu
    simp [hu] at hq
  · intro v hv
    simp only [keysOf, List.map_cons, List.map_nil, List.mem_singleton] at hv
    exact Or.inl hv
  · intro v hv
    simp only [List.mem_singleton] at hv
    subst hv
    exact ⟨⟨0, le_refl 0, ReachN.zero⟩, fun m _ => Nat.zero_le m⟩
  · intro w hw
    obtain ⟨n, hn, hr⟩ := hw
    interval_cases n
    have := ReachN_zero_eq hr
    simp [keysOf, this]

/-- One worklist iteration preserves the breadth-first invariant, growing
the explored map by vertices not previously explored. -/
theorem InvK_step {V : Type} [DecidableEq V] {f : V → Bool → List (V × Bool)}
    {origin : V}
    (hNodes : ∀ u ℓ, (f u ℓ).map Prod.fst = nodesOf f u)
    {k : Nat} {cur : V} {rest : List V} {E : List (V × Bool)}
    (hInv : InvK f origin k (cur :: rest) E) :
    ∃ (k' : Nat) (Enew : List (V × Bool)),
      ((f cur ((lookupLabel E cur).getD false)).foldl fcc_fold (rest, E)).2 =
        E ++ Enew ∧
      ((f cur ((lookupLabel E cur).getD false)).foldl fcc_fold (rest, E)).1 =
        rest ++ Enew.map Prod.fst ∧
      InvK f origin k' (rest ++ Enew.map Prod.fst) (E ++ Enew) ∧
      (∀ p ∈ Enew, p.1 ∉ keysOf E) ∧
      (∀ p ∈ Enew, p.1 ∈ nodesOf f cur) := by
  obtain ⟨hndE, hndq, hqk, horig, hclosure, hped, q1, q2, hsplit, hq1, hq2,
    hdisc, hexp, hcanon⟩ := hInv
  have hcurk : cur ∈ keysOf E := hqk cur (List.mem_cons_self _ _)
  obtain ⟨ℓcur, hℓcur⟩ := Option.isSome_iff_exists.1 (lookupLabel_isSome.2 hcurk)
  have hgetD : (lookupLabel E cur).getD false = ℓcur := by rw [hℓcur]; rfl
  rw [hgetD]
  obtain ⟨Enew, hE', hq', hnd', hnewspec, hout⟩ :=
    fcc_foldl_spec (f cur ℓcur) rest E hndE
  -- the head of the frontier sits in the level-k block
  rcases q1 with _ | ⟨c, q1'⟩
  · exact absurd (hsplit.trans (by rw [hcanon rfl]; rfl)) (List.cons_ne_nil _ _)
  rw [List.cons_append] at hsplit
  injection hsplit with hc1 hc2
  subst hc1
  have hcurd : dEq f origin k cur := hq1 cur (List.mem_cons_self _ _)
  have hcurnotrest : cur ∉ rest := (List.nodup_cons.1 hndq).1
  have hndrest : rest.Nodup := (List.nodup_cons.1 hndq).2
  -- newly discovered vertices are at distance exactly k+1
  have hnewfst : ∀ v ∈ Enew.map Prod.fst, ∃ p ∈ Enew, p.1 = v := by
    intro v hv
    obtain ⟨p, hp, he⟩ := List.mem_map.1 hv
    exact ⟨p, hp, he⟩
  have hnewnodes : ∀ p ∈ Enew, p.1 ∈ nodesOf f cur := by
    intro p hp
    have := (hnewspec p hp).1
    rw [← hNodes cur ℓcur]
    exact List.mem_map_of_mem _ this
  have hdEqnew : ∀ p ∈ Enew, dEq f origin (k + 1) p.1 := by
    intro p hp
    refine ⟨⟨k + 1, le_refl _, ReachN.succ (dEq_reach hcurd) (hnewnodes p hp)⟩, ?_⟩
    intro m hm
    by_contra hlt
    push_neg at hlt
    have : distLE f origin k p.1 := distLE_mono (by omega) hm
    exact (hnewspec p hp).2 (hdisc _ this)
  have hkeysE' : ∀ v, v ∈ keysOf (E ++ Enew) ↔ v ∈ keysOf E ∨ v ∈ keysOf Enew := by
    intro v
    simp [keysOf, List.map_append]
  have hsubE' : ∀ v, v ∈ keysOf E → v ∈ keysOf (E ++ Enew) := fun v hv =>
    (hkeysE' v).2 (Or.inl hv)
  have hnewkeys : ∀ v, v ∈ keysOf Enew ↔ v ∈ Enew.map Prod.fst := by
    intro v; simp [keysOf]
  have hndEnew : (Enew.map Prod.fst).Nodup := by
    have := hnd'
    simp only [keysOf, List.map_append] at this
    exact (List.nodup_append.1 this).2.1
  have hnewnotE : ∀ v ∈ Enew.map Prod.fst, v ∉ keysOf E := by
    intro v hv
    obtain ⟨p, hp, he⟩ := hnewfst v hv
    exact he ▸ (hnewspec p hp).2
  -- frontier wellformedness
  have hndq' : (rest ++ Enew.map Prod.fst).Nodup := by
    rw [List.nodup_append]
    refine ⟨hndrest, hndEnew, ?_⟩
    intro a ha hb
    exact hnewnotE a hb (hqk a (List.mem_cons_of_mem _ ha))
  have hq'sub : ∀ v ∈ rest ++ Enew.map Prod.fst, v ∈ keysOf (E ++ Enew) := by
    intro v hv
    rcases List.mem_append.1 hv with hv | hv
    · exact hsubE' v (hqk v (List.mem_cons_of_mem _ hv))
    · exact (hkeysE' v).2 (Or.inr ((hnewkeys v).2 hv))
  have horigE : origin ∈ keysOf E :=
    lookupLabel_isSome.1 (by rw [horig]; rfl)
  have horig' : lookupLabel (E ++ Enew) origin = some false := by
    rw [lookupLabel_append_left _ horigE]; exact horig
  -- lookups are stable on old keys
  have hstable : ∀ v ∈ keysOf E, lookupLabel (E ++ Enew) v = lookupLabel E v :=
    fun v hv => lookupLabel_append_left _ hv
  have hnewlookup : ∀ p ∈ Enew, lookupLabel (E ++ Enew) p.1 = some p.2 := by
    intro p hp
    rw [lookupLabel_append_right _ ((hnewspec p hp).2)]
    have hndk : (keysOf Enew).Nodup := by
      have := hnd'
      simp only [keysOf, List.map_append] at this
      exact (List.nodup_append.1 this).2.1
    exact mem_lookupLabel hndk hp
  -- expandedness is preserved, and cur becomes expanded
  have hexpangrow : ∀ u, expandedIn (cur :: rest) E u →
      expandedIn (rest ++ Enew.map Prod.fst) (E ++ Enew) u := by
    rintro u ⟨hu, hq⟩
    refine ⟨hsubE' u hu, ?_⟩
    intro hmem
    rcases List.mem_append.1 hmem with hm | hm
    · exact hq (List.mem_cons_of_mem _ hm)
    · exact hnewnotE u hm hu
  have hcurexp : expandedIn (rest ++ Enew.map Prod.fst) (E ++ Enew) cur := by
    refine ⟨hsubE' cur hcurk, ?_⟩
    intro hmem
    rcases List.mem_append.1 hmem with hm | hm
    · exact hcurnotrest hm
    · exact hnewnotE cur hm hcurk
  -- closure for the new state
  have hclosure' : ∀ u, expandedIn (rest ++ Enew.map Prod.fst) (E ++ Enew) u →
      ∀ v ∈ nodesOf f u, v ∈ keysOf (E ++ Enew) := by
    rintro u ⟨hu, hq⟩ v hv
    rcases (hkeysE' u).1 hu with hE | hEn
    · by_cases hcur : u = cur
      · subst hcur
        rw [← hNodes u ℓcur] at hv
        obtain ⟨p, hp, he⟩ := List.mem_map.1 hv
        exact he ▸ hout p hp
      · have hnotq : u ∉ cur :: rest := by
          intro hm
          rcases List.mem_cons.1 hm with hm | hm
          · exact hcur hm
          · exact hq (List.mem_append.2 (Or.inl hm))
        exact hsubE' v (hclosure u ⟨hE, hnotq⟩ v hv)
    · exact absurd (List.mem_append.2 (Or.inr ((hnewkeys u).1 hEn))) hq
  -- pedigree for the new state
  have hped' : ∀ v ∈ keysOf (E ++ Enew),
      pedigreeAt f origin (rest ++ Enew.map Prod.fst) (E ++ Enew) v := by
    intro v hv
    rcases (hkeysE' v).1 hv with hE | hEn
    · rcases hped v hE with h | ⟨u, ℓu, ℓv, kk, hexpd, hlu, hlv, hmem, hdu, hdv⟩
      · exact Or.inl h
      · exact Or.inr ⟨u, ℓu, ℓv, kk, hexpangrow u hexpd,
          (hstable u hexpd.1) ▸ hlu, (hstable v hE) ▸ hlv, hmem, hdu, hdv⟩
    · obtain ⟨p, hp, he⟩ := hnewfst v ((hnewkeys v).1 hEn)
      subst he
      exact Or.inr ⟨cur, ℓcur, p.2, k, hcurexp,
        lookupLabel_append_left _ hcurk ▸ hℓcur, hnewlookup p hp,
        (hnewspec p hp).1, hcurd, hdEqnew p hp⟩
  -- the level structure
  rcases q1' with _ | ⟨c', q1''⟩
  · -- the level-k block is exhausted: advance to level k+1
    simp only [List.nil_append] at hc2
    subst hc2
    refine ⟨k + 1, Enew, hE', hq', ⟨hnd', hndq', hq'sub, horig', hclosure', hped',
      rest ++ Enew.map Prod.fst, [], (List.append_nil _).symm, ?_, by simp, ?_, ?_,
      fun _ => rfl⟩, fun p hp => (hnewspec p hp).2, hnewnodes⟩
    · intro v hv
      rcases List.mem_append.1 hv with hv | hv
      · exact hq2 v hv
      · obtain ⟨p, hp, he⟩ := hnewfst v hv
        exact he ▸ hdEqnew p hp
    · -- every vertex within distance k+1 is discovered
      intro w hw
      obtain ⟨n, hn, hr⟩ := hw
      by_cases hnk : n ≤ k
      · exact hsubE' w (hdisc w ⟨n, hnk, hr⟩)
      · have hn1 : n = k + 1 := by omega
        subst hn1
        obtain ⟨u, hru, hwu⟩ := ReachN_succ_inv hr
        have huk : distLE f origin k u := ⟨k, le_refl _, hru⟩
        have huE : u ∈ keysOf E := hdisc u huk
        by_cases hucur : u = cur
        · subst hucur
          rw [← hNodes u ℓcur] at hwu
          obtain ⟨p, hp, he⟩ := List.mem_map.1 hwu
          exact he ▸ hout p hp
        · by_cases huq : u ∈ cur :: rest
          · rcases List.mem_cons.1 huq with h | h
            · exact absurd h hucur
            · have := hq2 u h
              exact absurd (this.2 k huk) (by omega)
          · exact hsubE' w (hclosure u ⟨huE, huq⟩ w hwu)
    · -- every vertex strictly below level k+1 is expanded
      intro w m hm hw
      have hwk : distLE f origin k w := distLE_mono (by omega) hw
      have hwE : w ∈ keysOf E := hdisc w hwk
      refine ⟨hsubE' w hwE, ?_⟩
      intro hmem
      rcases List.mem_append.1 hmem with hq | hq
      · have := hq2 w hq
        exact absurd (this.2 _ hwk) (by omega)
      · exact hnewnotE w hq hwE
  · -- the level-k block continues
    refine ⟨k, Enew, hE', hq', ⟨hnd', hndq', hq'sub, horig', hclosure', hped',
      c' :: q1'', q2 ++ Enew.map Prod.fst, by rw [hc2, List.append_assoc], ?_, ?_,
      ?_, ?_, fun h => (List.cons_ne_nil _ _ h).elim⟩,
      fun p hp => (hnewspec p hp).2, hnewnodes⟩
    · exact fun v hv => hq1 v (List.mem_cons_of_mem _ hv)
    · intro v hv
      rcases List.mem_append.1 hv with hv | hv
      · exact hq2 v hv
      · obtain ⟨p, hp, he⟩ := hnewfst v hv
        exact he ▸ hdEqnew p hp
    · exact fun w hw => hsubE' w (hdisc w hw)
    · intro w m hm hw
      have hold := hexp w m hm hw
      refine ⟨hsubE' w hold.1, ?_⟩
      intro hmem
      rcases List.mem_append.1 hmem with hq | hq
      · exact hold.2 (List.mem_cons_of_mem _ hq)
      · exact hnewnotE w hq hold.1

/-- Run the worklist to exhaustion: with fuel at least the vertex budget,
the frontier empties and the invariant holds of the final explored map. -/
theorem fcc_run_Inv {V : Type} [DecidableEq V] {f : V → Bool → List (V × Bool)}
    {origin : V} (hNodes : ∀ u ℓ, (f u ℓ).map Prod.fst = nodesOf f u)
    (U : List V) (hU : ∀ u, ∀ v ∈ nodesOf f u, v ∈ U) :
    ∀ (fuel : Nat) (q : List V) (E : List (V × Bool)),
      Inv f origin q E →
      (∀ v ∈ keysOf E, v ∈ origin :: U) →
      U.length + 1 + q.length ≤ fuel + (keysOf E).length →
      Inv f origin [] (fcc_run f fuel q E) := by
  intro fuel
  induction fuel with
  | zero =>
    intro q E hInv hsub hfuel
    have hkle : (keysOf E).length ≤ U.length + 1 := by
      obtain ⟨k, hI⟩ := hInv
      have h := (List.subperm_of_subset hI.1 hsub).length_le
      simpa using h
    have hq : q = [] := by
      cases q with
      | nil => rfl
      | cons a l =>
        simp only [List.length_cons, Nat.add_zero] at hfuel
        omega
    subst hq
    exact hInv
  | succ fuel ih =>
    intro q E hInv hsub hfuel
    cases q with
    | nil => exact hInv
    | cons cur rest =>
      obtain ⟨k, hI⟩ := hInv
      obtain ⟨k', Enew, hE', hq', hI', hnotold, hnewnod⟩ := InvK_step hNodes hI
      show Inv f origin []
        (fcc_run f fuel
          ((f cur ((lookupLabel E cur).getD false)).foldl fcc_fold (rest, E)).1
          ((f cur ((lookupLabel E cur).getD false)).foldl fcc_fold (rest, E)).2)
      rw [hq', hE']
      refine ih _ _ ⟨k', hI'⟩ ?_ ?_
      · intro v hv
        simp only [keysOf, List.map_append, List.mem_append] at hv
        rcases hv with hv | hv
        · exact hsub v hv
        · obtain ⟨p, hp, he⟩ := List.mem_map.1 hv
          exact he ▸ List.mem_cons_of_mem _ (hU cur p.1 (hnewnod p hp))
      · have hlen : (keysOf (E ++ Enew)).length = (keysOf E).length + Enew.length := by
          simp [keysOf]
        have hlenq : (rest ++ Enew.map Prod.fst).length = rest.length + Enew.length := by
          simp
        simp only [List.length_cons] at hfuel
        omega

/-- Membership in one railroad step, unfolded. -/
theorem mem_adjacent_iff {spec : Option PieceKind} {orig pos : Int × Int} {ℓ : Bool}
    {q : Int × Int} {c : Bool} :
    (q, c) ∈ adjacent_railroad_moves spec orig pos ℓ ↔
    ∃ line ∈ nonabsolute_railroad_lines,
      (match_sequence pos line &&
        (spec.isNone ||
         (match spec with | some k => k.railroad_corners | none => false) ||
         match_sequence orig line)) = true ∧
      c = (ℓ || !(match_sequence orig line)) ∧
      q ≠ pos ∧
      q.1 ∈ (component_values pos line).1 ∧
      q.2 ∈ (component_values pos line).2 := by
  simp only [adjacent_railroad_moves, List.mem_flatMap]
  constructor
  · rintro ⟨line, hline, hmem⟩
    refine ⟨line, hline, ?_⟩
    split at hmem
    · rename_i hcond
      obtain ⟨a, ha, he⟩ := List.mem_filterMap.1 hmem
      split at he
      · rename_i hne
        injection he with he
        injection he with he1 he2
        subst he1
        obtain ⟨x, hx, hy⟩ := List.mem_flatMap.1 ha
        obtain ⟨y, hy2, hxy⟩ := List.mem_map.1 hy
        cases hxy
        exact ⟨hcond, he2.symm, hne, hx, hy2⟩
      · exact absurd he (by simp)
    · exact absurd hmem (by simp)
  · rintro ⟨line, hline, hcond, hc, hne, h1, h2⟩
    refine ⟨line, hline, ?_⟩
    rw [if_pos hcond]
    apply List.mem_filterMap.2
    refine ⟨q, ?_, ?_⟩
    · exact List.mem_flatMap.2 ⟨q.1, h1, List.mem_map.2 ⟨q.2, h2, by simp⟩⟩
    · rw [if_pos hne, hc]

/-- Each expanded railroad line fixes one coordinate: rows fix y, columns
fix x. -/
theorem lines_structure :
    ∀ line ∈ nonabsolute_railroad_lines,
      line.2.length = 1 ∨ line.1.length = 1 := by
  decide

/-- Two distinct expanded railroad lines meet in at most one point
(expressed through the sizes of the componentwise intersections). -/
theorem lines_inter :
    ∀ l1 ∈ nonabsolute_railroad_lines, ∀ l2 ∈ nonabsolute_railroad_lines,
      l1 ≠ l2 →
      (l1.1.filter (fun v => decide (v ∈ l2.1))).length *
        (l1.2.filter (fun v => decide (v ∈ l2.2))).length ≤ 1 := by
  decide

theorem mem_networkNodes {v : Int × Int} :
    v ∈ networkNodes ↔
    ∃ line ∈ nonabsolute_railroad_lines, v.1 ∈ line.1 ∧ v.2 ∈ line.2 := by
  simp only [networkNodes, List.mem_flatMap, List.mem_map]
  constructor
  · rintro ⟨line, hline, x, hx, y, hy, hxy⟩
    cases hxy
    exact ⟨line, hline, hx, hy⟩
  · rintro ⟨line, hline, hx, hy⟩
    exact ⟨line, hline, v.1, hx, v.2, hy, by simp⟩

/-- A vertex lying on two distinct expanded railroad lines is the only
vertex on both. -/
theorem two_lines_unique_point {l1 l2 : List Int × List Int}
    (h1 : l1 ∈ nonabsolute_railroad_lines) (h2 : l2 ∈ nonabsolute_railroad_lines)
    (hne : l1 ≠ l2) {u v : Int × Int}
    (hu1 : u.1 ∈ l1.1) (hu2 : u.2 ∈ l1.2) (hu1' : u.1 ∈ l2.1) (hu2' : u.2 ∈ l2.2)
    (hv1 : v.1 ∈ l1.1) (hv2 : v.2 ∈ l1.2) (hv1' : v.1 ∈ l2.1) (hv2' : v.2 ∈ l2.2) :
    u = v := by
  have hlen := lines_inter l1 h1 l2 h2 hne
  have hux : u.1 ∈ l1.1.filter (fun w => decide (w ∈ l2.1)) :=
    List.mem_filter.2 ⟨hu1, by simpa using hu1'⟩
  have hvx : v.1 ∈ l1.1.filter (fun w => decide (w ∈ l2.1)) :=
    List.mem_filter.2 ⟨hv1, by simpa using hv1'⟩
  have huy : u.2 ∈ l1.2.filter (fun w => decide (w ∈ l2.2)) :=
    List.mem_filter.2 ⟨hu2, by simpa using hu2'⟩
  have hvy : v.2 ∈ l1.2.filter (fun w => decide (w ∈ l2.2)) :=
    List.mem_filter.2 ⟨hv2, by simpa using hv2'⟩
  have hx : u.1 = v.1 := by
    rcases hl : l1.1.filter (fun w => decide (w ∈ l2.1)) with _ | ⟨a, rest⟩
    · rw [hl] at hux
      simp at hux
    · have hr : rest = [] := by
        rw [hl] at hlen
        have hpos : 1 ≤ (l1.2.filter (fun w => decide (w ∈ l2.2))).length :=
          List.length_pos.2 (List.ne_nil_of_mem huy)
        simp only [List.length_cons] at hlen
        cases rest with
        | nil => rfl
        | cons b r =>
          simp only [List.length_cons] at hlen
          have h2 : 2 * 1 ≤ (r.length + 1 + 1) *
              (l1.2.filter (fun w => decide (w ∈ l2.2))).length :=
            Nat.mul_le_mul (by omega) hpos
          omega
      rw [hl, hr] at hux hvx
      simp only [List.mem_singleton] at hux hvx
      rw [hux, hvx]
  have hy : u.2 = v.2 := by
    rcases hl : l1.2.filter (fun w => decide (w ∈ l2.2)) with _ | ⟨a, rest⟩
    · rw [hl] at huy
      simp at huy
    · have hr : rest = [] := by
        rw [hl] at hlen
        have hpos : 1 ≤ (l1.1.filter (fun w => decide (w ∈ l2.1))).length :=
          List.length_pos.2 (List.ne_nil_of_mem hux)
        simp only [List.length_cons] at hlen
        cases rest with
        | nil => rfl
        | cons b r =>
          simp only [List.length_cons] at hlen
          have h2 : 1 * 2 ≤ (l1.1.filter (fun w => decide (w ∈ l2.1))).length *
              (r.length + 1 + 1) :=
            Nat.mul_le_mul hpos (by omega)
          omega
      rw [hl, hr] at huy hvy
      simp only [List.mem_singleton] at huy hvy
      rw [huy, hvy]
  exact Prod.ext hx hy

/-- The vertex set of one railroad step does not depend on the incoming
corner label (only the attached labels do). -/
theorem adjacent_railroad_moves_fst (spec : Option PieceKind) (orig pos : Int × Int)
    (ℓ : Bool) :
    (adjacent_railroad_moves spec orig pos ℓ).map Prod.fst =
    (adjacent_railroad_moves spec orig pos false).map Prod.fst := by
  simp only [adjacent_railroad_moves]
  rw [List.map_flatMap, List.map_flatMap]
  congr 1
  funext line
  split
  · rw [List.map_filterMap, List.map_filterMap]
    congr 1
    funext q
    split
    · rfl
    · rfl
  · rfl

theorem railroad_adjacent_fst (spec : Option PieceKind)
    (occ : (Int × Int) → Option Occupant) (pid : Nat) (orig u : Int × Int)
    (ℓ : Bool) :
    (railroad_adjacent spec occ pid orig u ℓ).map Prod.fst =
    nodesOf (railroad_adjacent spec occ pid orig) u := by
  unfold nodesOf railroad_adjacent
  by_cases hC : (inSystemB u &&
      (match occ u with | none => false | some q => decide (q.pid ≠ pid))) = true
  · rw [if_pos hC, if_pos hC]
  · rw [if_neg hC, if_neg hC]
    exact adjacent_railroad_moves_fst spec orig u ℓ

theorem mem_nodesOf_railroad {spec : Option PieceKind}
    {occ : (Int × Int) → Option Occupant} {pid : Nat} {orig u v : Int × Int} :
    v ∈ nodesOf (railroad_adjacent spec occ pid orig) u ↔
    ((inSystemB u &&
        (match occ u with | none => false | some q => decide (q.pid ≠ pid))) = false ∧
      ∃ c, (v, c) ∈ adjacent_railroad_moves spec orig u false) := by
  unfold nodesOf railroad_adjacent
  by_cases hC : (inSystemB u &&
      (match occ u with | none => false | some q => decide (q.pid ≠ pid))) = true
  · rw [if_pos hC]
    constructor
    · intro hv
      exact absurd hv (by simp)
    · rintro ⟨hf, -⟩
      rw [hC] at hf
      exact absurd hf (by simp)
  · rw [if_neg hC]
    have hC' : (inSystemB u &&
        (match occ u with | none => false | some q => decide (q.pid ≠ pid))) = false :=
      Bool.not_eq_true _ ▸ hC
    simp only [hC', true_and, List.mem_map]
    constructor
    · rintro ⟨⟨a, b⟩, hm, rfl⟩
      exact ⟨b, hm⟩
    · rintro ⟨b, hm⟩
      exact ⟨(v, b), hm, rfl⟩

theorem match_sequence_true {p : Int × Int} {line : List Int × List Int}
    (h : match_sequence p line = true) : p.1 ∈ line.1 ∧ p.2 ∈ line.2 := by
  simp only [match_sequence, Bool.and_eq_true, decide_eq_true_eq] at h
  exact h

/-- One railroad step moves exactly one unit along exactly one axis. -/
theorem adjacent_unit_step {spec : Option PieceKind} {orig pos : Int × Int}
    {ℓ c : Bool} {q : Int × Int}
    (h : (q, c) ∈ adjacent_railroad_moves spec orig pos ℓ) :
    (q.1 = pos.1 ∧ (q.2 - pos.2 = 1 ∨ pos.2 - q.2 = 1)) ∨
    (q.2 = pos.2 ∧ (q.1 - pos.1 = 1 ∨ pos.1 - q.1 = 1)) := by
  obtain ⟨line, hline, hcond, hc, hne, h1, h2⟩ := mem_adjacent_iff.1 h
  have hmatch0 : match_sequence pos line = true := by
    have h' := hcond
    simp only [Bool.and_eq_true] at h'
    exact h'.1
  have hmatch := match_sequence_true hmatch0
  obtain ⟨hq1, hq1line⟩ := List.mem_filter.1 h1
  obtain ⟨hq2, hq2line⟩ := List.mem_filter.1 h2
  simp only [decide_eq_true_eq] at hq1line hq2line
  simp only [List.mem_cons, List.not_mem_nil, or_false] at hq1 hq2
  rcases lines_structure line hline with hrow | hcol
  · rcases hy : line.2 with _ | ⟨y0, t⟩
    · rw [hy] at hmatch
      exact absurd hmatch.2 (List.not_mem_nil _)
    · have ht : t = [] := by
        rw [hy] at hrow
        simpa using hrow
      subst ht
      rw [hy] at hmatch hq2line
      simp only [List.mem_singleton] at hq2line
      have hp2 : pos.2 = y0 := by simpa using hmatch.2
      have hq2' : q.2 = pos.2 := by rw [hq2line, hp2]
      right
      refine ⟨hq2', ?_⟩
      have hne1 : q.1 ≠ pos.1 := by
        intro hcontr
        exact hne (Prod.ext hcontr hq2')
      omega
  · rcases hx : line.1 with _ | ⟨x0, t⟩
    · rw [hx] at hmatch
      exact absurd hmatch.1 (List.not_mem_nil _)
    · have ht : t = [] := by
        rw [hx] at hcol
        simpa using hcol
      subst ht
      rw [hx] at hmatch hq1line
      simp only [List.mem_singleton] at hq1line
      have hp1 : pos.1 = x0 := by simpa using hmatch.1
      have hq1' : q.1 = pos.1 := by rw [hq1line, hp1]
      left
      refine ⟨hq1', ?_⟩
      have hne2 : q.2 ≠ pos.2 := by
        intro hcontr
        exact hne (Prod.ext hq1' hcontr)
      omega

/-- Every vertex one railroad step reaches lies on the railroad network. -/
theorem nodesOf_railroad_sub {spec : Option PieceKind}
    {occ : (Int × Int) → Option Occupant} {pid : Nat} {orig : Int × Int} :
    ∀ u, ∀ v ∈ nodesOf (railroad_adjacent spec occ pid orig) u,
      v ∈ networkNodes := by
  intro u v hv
  obtain ⟨-, c, hmem⟩ := mem_nodesOf_railroad.1 hv
  obtain ⟨line, hline, -, -, -, h1, h2⟩ := mem_adjacent_iff.1 hmem
  have h1' := List.mem_filter.1 h1
  have h2' := List.mem_filter.1 h2
  simp only [decide_eq_true_eq] at h1' h2'
  exact mem_networkNodes.2 ⟨line, hline, h1'.2, h2'.2⟩

/-- Graph distance dominates the L1 distance from the origin. -/
theorem reach_L1 {spec : Option PieceKind} {occ : (Int × Int) → Option Occupant}
    {pid : Nat} {orig : Int × Int} {m : Nat} {v : Int × Int}
    (h : ReachN (railroad_adjacent spec occ pid orig) orig m v) :
    (v.1 - orig.1).natAbs + (v.2 - orig.2).natAbs ≤ m := by
  induction h with
  | zero => simp
  | succ hu hv ih =>
    obtain ⟨-, c, hmem⟩ := mem_nodesOf_railroad.1 hv
    rcases adjacent_unit_step hmem with ⟨h1, h2⟩ | ⟨h1, h2⟩ <;> omega

/-- A unit step between consecutive cells of one railroad line that also
contains the piece's position is yielded by the search, labelled
corner-free. -/
theorem straight_step_mem {spec : Option PieceKind} {s a : Int × Int}
    {L : List Int × List Int} {e1 e2 : Int}
    (hL : L ∈ nonabsolute_railroad_lines)
    (he4 : (e1 = 1 ∧ e2 = 0) ∨ (e1 = -1 ∧ e2 = 0) ∨ (e1 = 0 ∧ e2 = 1) ∨
      (e1 = 0 ∧ e2 = -1))
    (hsL : match_sequence s L = true)
    (haL : match_sequence a L = true)
    (hbL : match_sequence (a.1 + e1, a.2 + e2) L = true) :
    ((a.1 + e1, a.2 + e2), false) ∈ adjacent_railroad_moves spec s a false := by
  apply mem_adjacent_iff.2
  obtain ⟨hb1, hb2⟩ := match_sequence_true hbL
  refine ⟨L, hL, ?_, ?_, ?_, ?_, ?_⟩
  · rw [haL, hsL]
    simp
  · rw [hsL]
    rfl
  · intro hcontr
    rw [Prod.ext_iff] at hcontr
    obtain ⟨h1, h2⟩ := hcontr
    dsimp only at h1 h2
    omega
  · apply List.mem_filter.2
    refine ⟨?_, by simpa using hb1⟩
    show a.1 + e1 ∈ _
    simp only [List.mem_cons, List.not_mem_nil, or_false]
    omega
  · apply List.mem_filter.2
    refine ⟨?_, by simpa using hb2⟩
    show a.2 + e2 ∈ _
    simp only [List.mem_cons, List.not_mem_nil, or_false]
    omega

theorem networkNodes_short : networkNodes.length + 1 + 1 ≤ railroad_fuel + 1 := by
  decide

/-- C4 core: a destination reached from the piece's position by `n`
corner-free railroad steps along one line, through vacant transit cells,
is recorded by the search with the corner-free label — no matter what
other (corner) paths the breadth-first exploration encounters, because
the first discovery of each straight-path cell can only come from its
unique straight predecessor one level closer to the origin. -/
theorem straight_path_label_false
    (spec : Option PieceKind) (occ : (Int × Int) → Option Occupant) (pid : Nat)
    (s : Int × Int) (e1 e2 : Int) (L : List Int × List Int) (n : Nat)
    (hL : L ∈ nonabsolute_railroad_lines)
    (he4 : (e1 = 1 ∧ e2 = 0) ∨ (e1 = -1 ∧ e2 = 0) ∨ (e1 = 0 ∧ e2 = 1) ∨
      (e1 = 0 ∧ e2 = -1))
    (hn : 1 ≤ n)
    (hpath : ∀ j : Nat, j ≤ n →
      match_sequence (s.1 + j * e1, s.2 + j * e2) L = true)
    (htransit : ∀ j : Nat, j < n →
      (inSystemB (s.1 + j * e1, s.2 + j * e2) &&
        (match occ (s.1 + j * e1, s.2 + j * e2) with
         | none => false
         | some q => decide (q.pid ≠ pid))) = false) :
    lookupLabel
      (find_connected_component railroad_fuel s false
        (railroad_adjacent spec occ pid s))
      (s.1 + n * e1, s.2 + n * e2) = some false := by
  unfold find_connected_component
  set f := railroad_adjacent spec occ pid s with hf
  set P : Nat → Int × Int := fun j => (s.1 + j * e1, s.2 + j * e2) with hP
  have hP0 : P 0 = s := by
    simp [hP]
  have hPstep : ∀ j : Nat, P (j + 1) = ((P j).1 + e1, (P j).2 + e2) := by
    intro j
    simp only [hP]
    rw [Prod.mk.injEq]
    constructor <;> (push_cast; ring)
  have hpathP : ∀ j : Nat, j ≤ n → match_sequence (P j) L = true := by
    intro j hj
    simp only [hP]
    exact hpath j hj
  have htransitP : ∀ j : Nat, j < n →
      (inSystemB (P j) &&
        (match occ (P j) with
         | none => false
         | some q => decide (q.pid ≠ pid))) = false := by
    intro j hj
    simp only [hP]
    exact htransit j hj
  have hL1 : ∀ j : Nat, ((P j).1 - s.1).natAbs + ((P j).2 - s.2).natAbs = j := by
    intro j
    rcases he4 with ⟨he1, he2⟩ | ⟨he1, he2⟩ | ⟨he1, he2⟩ | ⟨he1, he2⟩ <;>
      (subst he1; subst he2; simp only [hP]; omega)
  have hedge : ∀ j : Nat, j < n → (P (j + 1), false) ∈ f (P j) false := by
    intro j hj
    have hnb := htransitP j hj
    rw [hf]
    unfold railroad_adjacent
    rw [if_neg (by rw [hnb]; simp)]
    rw [hPstep j]
    refine straight_step_mem hL he4 (by rw [← hP0]; exact hpathP 0 (by omega))
      (hpathP j (by omega)) ?_
    rw [← hPstep j]
    exact hpathP (j + 1) (by omega)
  have hnode : ∀ j : Nat, j < n → P (j + 1) ∈ nodesOf f (P j) := by
    intro j hj
    apply mem_nodesOf_railroad.2
    refine ⟨htransitP j hj, false, ?_⟩
    have h := hedge j hj
    rw [hf] at h
    unfold railroad_adjacent at h
    rw [if_neg (by rw [htransitP j hj]; simp)] at h
    exact h
  have hreach : ∀ j : Nat, j ≤ n → ReachN f s j (P j) := by
    intro j
    induction j with
    | zero => intro _; rw [hP0]; exact ReachN.zero
    | succ j ih =>
      intro hj
      exact ReachN.succ (ih (by omega)) (hnode j (by omega))
  have hdEq : ∀ j : Nat, j ≤ n → dEq f s j (P j) := by
    intro j hj
    refine ⟨⟨j, le_refl j, hreach j hj⟩, ?_⟩
    intro m hm
    obtain ⟨n', hn', hr⟩ := hm
    have := reach_L1 hr
    rw [hL1 j] at this
    omega
  have hNodes : ∀ u ℓ, (f u ℓ).map Prod.fst = nodesOf f u := by
    intro u ℓ
    exact railroad_adjacent_fst spec occ pid s u ℓ
  have hrun : Inv f s [] (fcc_run f railroad_fuel [s] [(s, false)]) := by
    apply fcc_run_Inv hNodes networkNodes (fun u v hv => nodesOf_railroad_sub u v hv)
    · exact ⟨0, InvK_init f s⟩
    · intro v hv
      simp only [keysOf, List.map_cons, List.map_nil, List.mem_singleton] at hv
      subst hv
      exact List.mem_cons_self _ _
    · simp only [keysOf, List.map_cons, List.map_nil, List.length_singleton,
        List.length_cons]
      exact networkNodes_short
  obtain ⟨kf, hndE, -, -, horig, hclos, hped, -⟩ := hrun
  set E' := fcc_run f railroad_fuel [s] [(s, false)] with hE'
  have hmain : ∀ j : Nat, j ≤ n →
      lookupLabel E' (P j) = some false ∧ P j ∈ keysOf E' := by
    intro j
    induction j with
    | zero =>
      intro _
      rw [hP0]
      exact ⟨horig, lookupLabel_isSome.1 (by rw [horig]; rfl)⟩
    | succ j ih =>
      intro hj
      have hjn : j < n := by omega
      obtain ⟨ihlook, ihmem⟩ := ih (by omega)
      have hmemv : P (j + 1) ∈ keysOf E' :=
        hclos (P j) ⟨ihmem, List.not_mem_nil _⟩ (P (j + 1)) (hnode j hjn)
      refine ⟨?_, hmemv⟩
      rcases hped _ hmemv with hor | ⟨u, ℓu, ℓv, kk, hexpd, hlu, hlv, hmemf, hdu, hdv⟩
      · exfalso
        have h1 := hL1 (j + 1)
        rw [hor] at h1
        simp only [sub_self, Int.natAbs_zero] at h1
        omega
      · have hdv' : dEq f s (j + 1) (P (j + 1)) := hdEq (j + 1) hj
        have hkk : kk = j := by
          have := dEq_unique hdv hdv'
          omega
        rw [hkk] at hdu
        have huL1 : (u.1 - s.1).natAbs + (u.2 - s.2).natAbs ≤ j := reach_L1 (dEq_reach hdu)
        have hadj : (P (j + 1), ℓv) ∈ adjacent_railroad_moves spec s u ℓu := by
          have h := hmemf
          rw [hf] at h
          unfold railroad_adjacent at h
          split at h
          · exact absurd h (by simp)
          · exact h
        have hstepu := adjacent_unit_step hadj
        have hv1 : (P (j + 1)).1 = s.1 + ((j : Int) + 1) * e1 := by
          simp only [hP]
          push_cast
          ring
        have hv2 : (P (j + 1)).2 = s.2 + ((j : Int) + 1) * e2 := by
          simp only [hP]
          push_cast
          ring
        have hpj1 : (P j).1 = s.1 + (j : Int) * e1 := by simp [hP]
        have hpj2 : (P j).2 = s.2 + (j : Int) * e2 := by simp [hP]
        have hu : u = P j := by
          rw [hv1, hv2] at hstepu
          refine Prod.ext ?_ ?_
          · rw [hpj1]
            rcases he4 with ⟨he1, he2⟩ | ⟨he1, he2⟩ | ⟨he1, he2⟩ | ⟨he1, he2⟩ <;>
              (subst he1; subst he2; omega)
          · rw [hpj2]
            rcases he4 with ⟨he1, he2⟩ | ⟨he1, he2⟩ | ⟨he1, he2⟩ | ⟨he1, he2⟩ <;>
              (subst he1; subst he2; omega)
        have hℓu : ℓu = false := by
          rw [hu, ihlook] at hlu
          injection hlu with h
          exact h.symm
        subst hℓu
        subst hu
        obtain ⟨line, hline, hcond, hcv, hne, h1, h2⟩ := mem_adjacent_iff.1 hadj
        have hcond' : match_sequence (P j) line = true := by
          have h' := hcond
          simp only [Bool.and_eq_true] at h'
          exact h'.1
        have honline := match_sequence_true hcond'
        have h1' := List.mem_filter.1 h1
        have h2' := List.mem_filter.1 h2
        simp only [decide_eq_true_eq] at h1' h2'
        have honL := match_sequence_true (hpathP j (by omega))
        have honL' := match_sequence_true (hpathP (j + 1) (by omega))
        have hlineL : line = L := by
          by_contra hne'
          have hPP : P j = P (j + 1) :=
            two_lines_unique_point hline hL hne' honline.1 honline.2
              honL.1 honL.2 h1'.2 h2'.2 honL'.1 honL'.2
          exact hne hPP.symm
        subst hlineL
        have hsline : match_sequence s line = true := by
          rw [← hP0]
          exact hpathP 0 (by omega)
        rw [hsline] at hcv
        simp only [Bool.or_false, Bool.not_true, Bool.false_or] at hcv
        rw [hlv, hcv]
  have hgoal := (hmain n (le_refl n)).1
  simp only [hP] at hgoal
  exact hgoal

/-- Road moves reach only cells adjacent (in the axis or diagonal sense)
to the start: each coordinate changes by at most one, the destination
differs from the start, and a move changing both coordinates (a
diagonal) requires a diagonal-enabled space at one of its ends. -/
theorem road_moves_close {s v : Int × Int} (h : v ∈ road_moves s) :
    (v.1 - s.1).natAbs ≤ 1 ∧ (v.2 - s.2).natAbs ≤ 1 ∧ v ≠ s ∧
    ((v.1 = s.1 ∨ v.2 = s.2) ∨
      ((position_spec s).diagonals || (position_spec v).diagonals) = true) := by
  simp only [road_moves, map_coord_components_x, map_coord_components_y,
    map_coord_components_xy, either_side, List.mem_append, List.mem_filter,
    List.mem_flatMap, List.mem_map, List.mem_cons, List.not_mem_nil, or_false,
    List.mem_singleton] at h
  rcases h with (h | h) | h
  · obtain ⟨c, hc, hm⟩ := h
    subst hc
    obtain ⟨⟨x, hx, hxy⟩, -⟩ := hm
    subst hxy
    rcases hx with rfl | rfl <;>
      refine ⟨by omega, by omega, ?_, Or.inl (Or.inr rfl)⟩ <;>
      · intro hcontr
        rw [Prod.ext_iff] at hcontr
        obtain ⟨h1, h2⟩ := hcontr
        dsimp only at h1 h2
        omega
  · obtain ⟨c, hc, hm⟩ := h
    subst hc
    obtain ⟨⟨y, hy, hxy⟩, -⟩ := hm
    subst hxy
    rcases hy with rfl | rfl <;>
      refine ⟨by omega, by omega, ?_, Or.inl (Or.inl rfl)⟩ <;>
      · intro hcontr
        rw [Prod.ext_iff] at hcontr
        obtain ⟨h1, h2⟩ := hcontr
        dsimp only at h1 h2
        omega
  · obtain ⟨hm, hdiag⟩ := h
    obtain ⟨c, hc, hm2⟩ := hm
    subst hc
    obtain ⟨⟨x, hx, y, hy, hxy⟩, -⟩ := hm2
    subst hxy
    rcases hx with rfl | rfl <;> rcases hy with rfl | rfl <;>
      refine ⟨by omega, by omega, ?_, Or.inr hdiag⟩ <;>
      · intro hcontr
        rw [Prod.ext_iff] at hcontr
        obtain ⟨h1, h2⟩ := hcontr
        dsimp only at h1 h2
        omega

/-- Looking a valid, non-origin destination up in `_railroad_moves`'s
result is the same as looking it up in the raw explored map. -/
theorem lookupLabel_railroad_moves {spec : Option PieceKind}
    {occ : (Int × Int) → Option Occupant} {pid : Nat} {origin v : Int × Int}
    (hvne : v ≠ origin) (hvin : inSystemB v = true) :
    lookupLabel (railroad_moves spec occ pid origin) v =
    lookupLabel
      (find_connected_component railroad_fuel origin false
        (railroad_adjacent spec occ pid origin)) v := by
  unfold railroad_moves
  generalize (find_connected_component railroad_fuel origin false
    (railroad_adjacent spec occ pid origin)) = E
  induction E with
  | nil => simp
  | cons p rest ih =>
    rcases p with ⟨a, b⟩
    rw [List.filterMap_cons]
    by_cases hav : a = v
    · subst hav
      rw [if_pos (by simp [hvne, hvin])]
      rw [lookupLabel_cons, lookupLabel_cons, if_pos rfl, if_pos rfl]
    · by_cases hcond : (decide (((a, b) : (Int × Int) × Bool).1 ≠ origin) &&
          inSystemB ((a, b) : (Int × Int) × Bool).1) = true
      · rw [if_pos hcond, lookupLabel_cons, lookupLabel_cons, if_neg hav, if_neg hav]
        exact ih
      · rw [if_neg hcond, lookupLabel_cons, if_neg hav]
        exact ih

/-- C4 (amended): a destination reachable from the piece's position by at
least two railroad steps that never change railroad line, with all
transit cells vacant, is classified RAILROAD by `verify_move` — never
RAILROAD_CORNER — independent of which same-distance corner paths the
search explores first.  (A corner-free destination a single step away is
classified ROAD instead; see the counterexample.) -/
theorem corner_free_straight_path_is_railroad
    (spec : Option PieceKind) (friendly : Bool)
    (occ : (Int × Int) → Option Occupant) (pid : Nat)
    (s : Int × Int) (e1 e2 : Int) (L : List Int × List Int) (n : Nat)
    (hL : L ∈ nonabsolute_railroad_lines)
    (he4 : (e1 = 1 ∧ e2 = 0) ∨ (e1 = -1 ∧ e2 = 0) ∨ (e1 = 0 ∧ e2 = 1) ∨
      (e1 = 0 ∧ e2 = -1))
    (hn : 2 ≤ n)
    (hpath : ∀ j : Nat, j ≤ n →
      match_sequence (s.1 + j * e1, s.2 + j * e2) L = true)
    (htransit : ∀ j : Nat, j < n →
      (inSystemB (s.1 + j * e1, s.2 + j * e2) &&
        (match occ (s.1 + j * e1, s.2 + j * e2) with
         | none => false
         | some q => decide (q.pid ≠ pid))) = false)
    (hcan : can_move spec s = true)
    (hatk : verify_attack friendly occ (s.1 + n * e1, s.2 + n * e2) = true)
    (hend : inSystemB (s.1 + n * e1, s.2 + n * e2) = true) :
    verify_move spec friendly occ pid (some s) (s.1 + n * e1, s.2 + n * e2) =
      some .RAILROAD := by
  have hlook := straight_path_label_false spec occ pid s e1 e2 L n hL he4
    (by omega) hpath htransit
  have hds : s ≠ ((s.1 + (n : Int) * e1, s.2 + (n : Int) * e2) : Int × Int) := by
    intro hcontr
    rw [Prod.ext_iff] at hcontr
    obtain ⟨h1, h2⟩ := hcontr
    dsimp only at h1 h2
    rcases he4 with ⟨ha, hb⟩ | ⟨ha, hb⟩ | ⟨ha, hb⟩ | ⟨ha, hb⟩ <;>
      (subst ha; subst hb; omega)
  have hroad : ((s.1 + (n : Int) * e1, s.2 + (n : Int) * e2) : Int × Int) ∉
      road_moves s := by
    intro hmem
    obtain ⟨hx, hy, -, -⟩ := road_moves_close hmem
    dsimp only at hx hy
    rcases he4 with ⟨ha, hb⟩ | ⟨ha, hb⟩ | ⟨ha, hb⟩ | ⟨ha, hb⟩ <;>
      (subst ha; subst hb; omega)
  simp only [verify_move]
  rw [if_neg (by simp [hds, hcan, hatk])]
  rw [if_neg hroad]
  rw [lookupLabel_railroad_moves (Ne.symm hds) hend, hlook]
  rfl

/-- C4 witness: the engineer at (2,1) on the demonstration board reaches
(2,3) by two corner-free steps up the x=2 column through the vacant cell
(2,2); `verify_move` classifies the move RAILROAD. -/
theorem corner_free_straight_path_is_railroad_witness :
    verify_move (some .ENGINEER) true demo_occupancy 7 (some (2, 1))
      ((2 : Int) + (2 : Nat) * (0 : Int), (1 : Int) + (2 : Nat) * (1 : Int)) =
      some .RAILROAD := by
  exact corner_free_straight_path_is_railroad (some .ENGINEER) true demo_occupancy
    7 (2, 1) 0 1 ([2], [0, 1, 2, 3, 4, 5, -1, -2, -3, -4, -5]) 2
    (by decide) (by decide) (by decide) (by decide) (by decide) (by decide)
    (by decide) (by decide)

/-- Every recorded (vertex, label) pair of the search is realized by a
labelled walk from the origin. -/
theorem fcc_run_sound {V : Type} [DecidableEq V] {f : V → Bool → List (V × Bool)}
    {origin : V} :
    ∀ (fuel : Nat) (q : List V) (E : List (V × Bool)),
      (keysOf E).Nodup → (∀ v ∈ q, v ∈ keysOf E) →
      (∀ p ∈ E, LabReach f origin p.2 p.1) →
      ∀ p ∈ fcc_run f fuel q E, LabReach f origin p.2 p.1 := by
  intro fuel
  induction fuel with
  | zero => exact fun q E _ _ hsound p hp => hsound p hp
  | succ fuel ih =>
    intro q E hnd hq hsound
    cases q with
    | nil => exact fun p hp => hsound p hp
    | cons cur rest =>
      have hcurk := hq cur (List.mem_cons_self _ _)
      obtain ⟨ℓcur, hℓ⟩ := Option.isSome_iff_exists.1 (lookupLabel_isSome.2 hcurk)
      have hgetD : (lookupLabel E cur).getD false = ℓcur := by rw [hℓ]; rfl
      have hlr : LabReach f origin ℓcur cur := by
        have hm := lookupLabel_mem hℓ
        exact hsound (cur, ℓcur) hm
      obtain ⟨Enew, hE', hq', hnd', hnewspec, hout⟩ :=
        fcc_foldl_spec (f cur ℓcur) rest E hnd
      show ∀ p ∈ fcc_run f fuel
          ((f cur ((lookupLabel E cur).getD false)).foldl fcc_fold (rest, E)).1
          ((f cur ((lookupLabel E cur).getD false)).foldl fcc_fold (rest, E)).2,
        LabReach f origin p.2 p.1
      rw [hgetD, hq', hE']
      apply ih
      · exact hnd'
      · intro v hv
        simp only [keysOf, List.map_append, List.mem_append]
        rcases List.mem_append.1 hv with hv | hv
        · exact Or.inl (hq v (List.mem_cons_of_mem _ hv))
        · exact Or.inr (by simpa [keysOf] using hv)
      · intro p hp
        rcases List.mem_append.1 hp with hp | hp
        · exact hsound p hp
        · have hm := (hnewspec p hp).1
          have : (p.1, p.2) ∈ f cur ℓcur := by simpa using hm
          exact LabReach.succ hlr this

/-- If every adjacency step out of a corner-free state is labelled
corner-free, all recorded labels stay corner-free. -/
theorem fcc_run_labels_false {V : Type} [DecidableEq V]
    {f : V → Bool → List (V × Bool)}
    (hf : ∀ u, ∀ p ∈ f u false, p.2 = false) :
    ∀ (fuel : Nat) (q : List V) (E : List (V × Bool)),
      (keysOf E).Nodup →
      (∀ p ∈ E, p.2 = false) →
      ∀ p ∈ fcc_run f fuel q E, p.2 = false := by
  intro fuel
  induction fuel with
  | zero => exact fun q E _ hfa p hp => hfa p hp
  | succ fuel ih =>
    intro q E hnd hfa
    cases q with
    | nil => exact fun p hp => hfa p hp
    | cons cur rest =>
      have hgetD : (lookupLabel E cur).getD false = false := by
        cases hℓ : lookupLabel E cur with
        | none => rfl
        | some ℓ =>
          have := hfa (cur, ℓ) (lookupLabel_mem hℓ)
          simpa using this
      obtain ⟨Enew, hE', hq', hnd', hnewspec, hout⟩ :=
        fcc_foldl_spec (f cur ((lookupLabel E cur).getD false)) rest E hnd
      show ∀ p ∈ fcc_run f fuel
          ((f cur ((lookupLabel E cur).getD false)).foldl fcc_fold (rest, E)).1
          ((f cur ((lookupLabel E cur).getD false)).foldl fcc_fold (rest, E)).2,
        p.2 = false
      rw [hq', hE']
      apply ih
      · exact hnd'
      · intro p hp
        rcases List.mem_append.1 hp with hp | hp
        · exact hfa p hp
        · have hm := (hnewspec p hp).1
          rw [hgetD] at hm
          exact hf cur p hm

/-- A labelled walk that has left the origin certifies that the origin's
cell was not blocked, that the origin lies on a railroad line, and that
the endpoint is a network vertex. -/
theorem LabReach_first_step {spec : Option PieceKind}
    {occ : (Int × Int) → Option Occupant} {pid : Nat} {s v : Int × Int} {ℓ : Bool}
    (h : LabReach (railroad_adjacent spec occ pid s) s ℓ v) :
    v = s ∨
    ((inSystemB s &&
        (match occ s with | none => false | some q => decide (q.pid ≠ pid))) = false ∧
      (∃ line ∈ nonabsolute_railroad_lines, match_sequence s line = true) ∧
      v ∈ networkNodes) := by
  induction h with
  | zero => exact Or.inl rfl
  | succ hu hstep ih =>
    rename_i ℓu ℓv u v
    right
    have hvnet : v ∈ networkNodes := by
      apply nodesOf_railroad_sub u
      rw [← railroad_adjacent_fst spec occ pid s u ℓu]
      exact List.mem_map_of_mem _ hstep
    rcases ih with rfl | ⟨g1, g2, -⟩
    · have hguard : (inSystemB u &&
          (match occ u with | none => false | some q => decide (q.pid ≠ pid))) = false := by
        by_contra hg
        have hg' : (inSystemB u &&
            (match occ u with | none => false | some q => decide (q.pid ≠ pid))) = true := by
          revert hg
          cases (inSystemB u &&
            (match occ u with | none => false | some q => decide (q.pid ≠ pid))) <;> simp
        unfold railroad_adjacent at hstep
        rw [if_pos hg'] at hstep
        exact absurd hstep (by simp)
      have hadj : (v, ℓv) ∈ adjacent_railroad_moves spec u u ℓu := by
        unfold railroad_adjacent at hstep
        rw [if_neg (by rw [hguard]; simp)] at hstep
        exact hstep
      obtain ⟨line, hline, hcond, -, -, -, -⟩ := mem_adjacent_iff.1 hadj
      have hm : match_sequence u line = true := by
        have h' := hcond
        simp only [Bool.and_eq_true] at h'
        exact h'.1
      exact ⟨hguard, ⟨line, hline, hm⟩, hvnet⟩
    · exact ⟨g1, g2, hvnet⟩

/-- No railroad-network vertex is a diagonal-enabled (camp) space. -/
theorem network_no_diagonals :
    ∀ u ∈ networkNodes, (position_spec u).diagonals = false := by
  decide

/-- Axis-adjacent railroad-network vertices always share a line. -/
theorem network_adjacent_share_line :
    ∀ u ∈ networkNodes, ∀ v ∈ networkNodes,
      (u.1 - v.1).natAbs + (u.2 - v.2).natAbs = 1 →
      ∃ line ∈ nonabsolute_railroad_lines,
        match_sequence u line = true ∧ match_sequence v line = true := by
  decide

/-- A cell adjacent to the piece's position along a shared line is one
corner-free railroad step away. -/
theorem adjacent_step_of_close {spec : Option PieceKind} {s d : Int × Int}
    {line : List Int × List Int} (hline : line ∈ nonabsolute_railroad_lines)
    (hs : match_sequence s line = true) (hd : match_sequence d line = true)
    (hne : d ≠ s) (h1 : (d.1 - s.1).natAbs ≤ 1) (h2 : (d.2 - s.2).natAbs ≤ 1) :
    (d, false) ∈ adjacent_railroad_moves spec s s false := by
  apply mem_adjacent_iff.2
  obtain ⟨hd1, hd2⟩ := match_sequence_true hd
  refine ⟨line, hline, ?_, ?_, hne, ?_, ?_⟩
  · rw [hs]
    simp
  · rw [hs]
    rfl
  · apply List.mem_filter.2
    refine ⟨?_, by simpa using hd1⟩
    simp only [List.mem_cons, List.not_mem_nil, or_false]
    omega
  · apply List.mem_filter.2
    refine ⟨?_, by simpa using hd2⟩
    simp only [List.mem_cons, List.not_mem_nil, or_false]
    omega

/-- Entries of `_railroad_moves`'s result come from the explored map. -/
theorem railroad_moves_sub {spec : Option PieceKind}
    {occ : (Int × Int) → Option Occupant} {pid : Nat} {origin : Int × Int}
    {p : (Int × Int) × Bool} (h : p ∈ railroad_moves spec occ pid origin) :
    p ∈ find_connected_component railroad_fuel origin false
      (railroad_adjacent spec occ pid origin) := by
  simp only [railroad_moves, List.mem_filterMap] at h
  obtain ⟨m, hm, he⟩ := h
  split at he
  · injection he with he
    exact he ▸ hm
  · exact absurd he (by simp)

/-- For an archetype without railroad corners, every label a step emits
is corner-free (the guard forces the step's line through the origin). -/
theorem railroad_adjacent_labels_false {k : PieceKind}
    (hk : k.railroad_corners = false) {occ : (Int × Int) → Option Occupant}
    {pid : Nat} {orig : Int × Int} :
    ∀ u, ∀ p ∈ railroad_adjacent (some k) occ pid orig u false, p.2 = false := by
  intro u p hp
  unfold railroad_adjacent at hp
  split at hp
  · exact absurd hp (by simp)
  · rcases p with ⟨q, c⟩
    obtain ⟨line, hline, hcond, hc, -, -, -⟩ := mem_adjacent_iff.1 hp
    have hcond' := hcond
    simp only [Bool.and_eq_true, Bool.or_eq_true] at hcond'
    have hmo : match_sequence orig line = true := by
      rcases hcond'.2 with (h | h) | h
      · exact absurd h (by simp)
      · exact absurd (h : k.railroad_corners = true) (by simp [hk])
      · exact h
    rw [hmo] at hc
    simpa using hc

/-- C5: the railroad search never returns the piece's own position; a
destination the search records that is not corner-free reachable (every
railroad path to it changes line) is classified RAILROAD_CORNER by
`verify_move`; and a piece whose archetype disallows railroad corners
never has any destination verified as a RAILROAD_CORNER move. -/
theorem railroad_search_corner_properties :
    (∀ (spec : Option PieceKind) (occ : (Int × Int) → Option Occupant)
        (pid : Nat) (origin : Int × Int),
      lookupLabel (railroad_moves spec occ pid origin) origin = none) ∧
    (∀ (spec : Option PieceKind) (friendly : Bool)
        (occ : (Int × Int) → Option Occupant) (pid : Nat) (s d : Int × Int)
        (c : Bool),
      lookupLabel (railroad_moves spec occ pid s) d = some c →
      ¬ LabReach (railroad_adjacent spec occ pid s) s false d →
      can_move spec s = true → verify_attack friendly occ d = true →
      verify_move spec friendly occ pid (some s) d = some .RAILROAD_CORNER) ∧
    (∀ k : PieceKind, k.railroad_corners = false →
      ∀ (friendly : Bool) (occ : (Int × Int) → Option Occupant) (pid : Nat)
        (start : Option (Int × Int)) (d : Int × Int),
      verify_move (some k) friendly occ pid start d ≠ some .RAILROAD_CORNER) := by
  refine ⟨?_, ?_, ?_⟩
  · intro spec occ pid origin
    cases h : lookupLabel (railroad_moves spec occ pid origin) origin with
    | none => rfl
    | some c =>
      have hm := lookupLabel_mem h
      have hprops := railroad_moves_mem hm
      exact absurd rfl hprops.2
  · intro spec friendly occ pid s d c hlook hnocf hcan hatk
    have hmem := lookupLabel_mem hlook
    have hprops := railroad_moves_mem hmem
    have hE := railroad_moves_sub hmem
    unfold find_connected_component at hE
    have hsound : LabReach (railroad_adjacent spec occ pid s) s c d := by
      have := fcc_run_sound railroad_fuel [s] [(s, false)]
        (by simp [keysOf]) (by simp [keysOf])
        (by
          rintro p hp
          simp only [List.mem_singleton] at hp
          subst hp
          exact LabReach.zero) (d, c) hE
      exact this
    have hc : c = true := by
      cases c with
      | false => exact absurd hsound hnocf
      | true => rfl
    rcases LabReach_first_step hsound with hds | ⟨hguard, ⟨lineS, hlineS, hmS⟩, hdnet⟩
    · exact absurd hds hprops.2
    have hsnet : s ∈ networkNodes :=
      mem_networkNodes.2 ⟨lineS, hlineS, (match_sequence_true hmS).1,
        (match_sequence_true hmS).2⟩
    have hroad : d ∉ road_moves s := by
      intro hmem'
      obtain ⟨h1, h2, hne', hsplit⟩ := road_moves_close hmem'
      rcases hsplit with haxis | hdiag
      · have hL1 : (s.1 - d.1).natAbs + (s.2 - d.2).natAbs = 1 := by
          rcases haxis with h | h
          · have : d.2 ≠ s.2 := fun hc2 => hne' (Prod.ext h hc2)
            omega
          · have : d.1 ≠ s.1 := fun hc1 => hne' (Prod.ext hc1 h)
            omega
        obtain ⟨line, hline, hms2, hmd2⟩ :=
          network_adjacent_share_line s hsnet d hdnet hL1
        have hstep1 : (d, false) ∈ adjacent_railroad_moves spec s s false :=
          adjacent_step_of_close hline hms2 hmd2 hne' h1 h2
        have : LabReach (railroad_adjacent spec occ pid s) s false d := by
          apply LabReach.succ LabReach.zero
          unfold railroad_adjacent
          rw [if_neg (by rw [hguard]; simp)]
          exact hstep1
        exact hnocf this
      · rw [network_no_diagonals s hsnet, network_no_diagonals d hdnet] at hdiag
        exact absurd hdiag (by simp)
    simp only [verify_move]
    rw [if_neg (by simp [Ne.symm hprops.2, hcan, hatk])]
    rw [if_neg hroad]
    rw [hlook, hc]
    rfl
  · intro k hk friendly occ pid start d hcontr
    cases start with
    | none =>
      simp only [verify_move] at hcontr
      split at hcontr
      · exact absurd hcontr (by simp)
      · split at hcontr
        · exact absurd hcontr (by simp)
        · split at hcontr
          · split at hcontr
            · exact absurd hcontr (by simp)
            · exact absurd hcontr (by simp)
          · exact absurd hcontr (by simp)
    | some s =>
      simp only [verify_move] at hcontr
      split at hcontr
      · exact absurd hcontr (by simp)
      · split at hcontr
        · exact absurd hcontr (by simp)
        · split at hcontr
          · rename_i c heq
            have hmem := lookupLabel_mem heq
            have hE := railroad_moves_sub hmem
            unfold find_connected_component at hE
            have hfalse := fcc_run_labels_false
              (railroad_adjacent_labels_false hk) railroad_fuel [s] [(s, false)]
              (by simp [keysOf])
              (by
                rintro p hp
                simp only [List.mem_singleton] at hp
                subst hp
                rfl) (d, c) hE
            simp only at hfalse
            rw [hfalse] at hcontr
            exact absurd hcontr (by simp)
          · exact absurd hcontr (by simp)

/-- C5 witness: on the demonstration board the engineer's search does not
report its own square (2,1), and the Captain (no railroad corners) never
receives a RAILROAD_CORNER verification. -/
theorem railroad_search_corner_properties_witness :
    lookupLabel (railroad_moves (some .ENGINEER) demo_occupancy 7 (2, 1)) (2, 1) =
      none ∧
    verify_move (some .CAPTAIN) true demo_occupancy 7 (some (2, 1)) (2, 2) ≠
      some .RAILROAD_CORNER :=
  ⟨railroad_search_corner_properties.1 (some .ENGINEER) demo_occupancy 7 (2, 1),
   railroad_search_corner_properties.2.2 .CAPTAIN rfl true demo_occupancy 7
     (some (2, 1)) (2, 2)⟩

theorem except_bind_ok {α β : Type} {x : Except String α} {f : α → Except String β}
    {b : β} : (x >>= f) = .ok b ↔ ∃ a, x = .ok a ∧ f a = .ok b := by
  cases x with
  | ok a => simp [Bind.bind, Except.bind]
  | error e => simp [Bind.bind, Except.bind]

/-- The maybies filter keeps exactly the candidates the event remains
possible for: results are a subset of the input, and candidates the event
is possible for survive. -/
theorem filter_possible_spec {pid : Nat} {e : Event} :
    ∀ {l l' : List PieceKind}, filter_possible pid e l = .ok l' →
      (∀ k ∈ l', k ∈ l) ∧
      (∀ k ∈ l, event_possible_for_type pid e k = .ok true → k ∈ l') := by
  intro l
  induction l with
  | nil =>
    intro l' h
    simp only [filter_possible] at h
    injection h with h
    subst h
    exact ⟨by simp, by simp⟩
  | cons k rest ih =>
    intro l' h
    simp only [filter_possible] at h
    obtain ⟨b, hb, h2⟩ := except_bind_ok.1 h
    obtain ⟨r, hr, h3⟩ := except_bind_ok.1 h2
    injection h3 with h3
    subst h3
    obtain ⟨ih1, ih2⟩ := ih hr
    constructor
    · intro k' hk'
      by_cases hbv : b = true
      · rw [if_pos hbv] at hk'
        rcases List.mem_cons.1 hk' with hk' | hk'
        · exact hk' ▸ List.mem_cons_self _ _
        · exact List.mem_cons_of_mem _ (ih1 k' hk')
      · rw [if_neg hbv] at hk'
        exact List.mem_cons_of_mem _ (ih1 k' hk')
    · intro k' hk' hposs
      rcases List.mem_cons.1 hk' with hk' | hk'
      · subst hk'
        rw [hposs] at hb
        injection hb with hb
        rw [if_pos hb.symm]
        exact List.mem_cons_self _ _
      · have := ih2 k' hk' hposs
        by_cases hbv : b = true
        · rw [if_pos hbv]
          exact List.mem_cons_of_mem _ this
        · rw [if_neg hbv]
          exact this

/-- A successful `add_event` keeps the piece's identity and spec, and
either there were no candidate archetypes, or the candidates were run
through the possibility filter. -/
theorem add_event_ok_anatomy {p : BoardPiece} {e : Event} {p' : BoardPiece}
    (h : add_event p e = .ok p') :
    p'.pid = p.pid ∧ p'.spec = p.spec ∧
    ((p.maybies = none ∧ p'.maybies = none) ∨
      (∃ l l', p.maybies = some l ∧ p'.maybies = some l' ∧
        filter_possible p.pid e l = .ok l')) := by
  unfold add_event at h
  split at h
  · exact Except.noConfusion h
  · obtain ⟨p1, hp1, hrest⟩ := except_bind_ok.1 h
    have hp1f : p1.pid = p.pid ∧ p1.spec = p.spec ∧ p1.maybies = p.maybies := by
      split at hp1
      · injection hp1 with hp1
        subst hp1
        exact ⟨rfl, rfl, rfl⟩
      · split at hp1
        · split at hp1
          · split at hp1
            · exact Except.noConfusion hp1
            · injection hp1 with hp1
              subst hp1
              exact ⟨rfl, rfl, rfl⟩
          · exact Except.noConfusion hp1
        · exact Except.noConfusion hp1
    obtain ⟨hpid, hspec, hmay⟩ := hp1f
    simp only at hrest
    split at hrest
    · rename_i hnone
      injection hrest with hrest
      subst hrest
      refine ⟨hpid, hspec, Or.inl ⟨?_, ?_⟩⟩
      · rw [← hmay]; exact hnone
      · exact hnone
    · rename_i l hsome
      obtain ⟨l2, hl2, hfin⟩ := except_bind_ok.1 hrest
      injection hfin with hfin
      subst hfin
      refine ⟨hpid, hspec, Or.inr ⟨l, l2, ?_, rfl, ?_⟩⟩
      · rw [← hmay]; exact hsome
      · exact hl2

/-- C4 counterexample: (2,2) is reachable from the engineer's position
(2,1) by railroad steps that never change line (a single step along the
x=2 column, no transit cells, and the search itself labels it
corner-free), yet `verify_move` classifies the move as ROAD, not
RAILROAD, because the road check precedes the railroad classification. -/
theorem corner_free_adjacent_is_road :
    lookupLabel (railroad_moves (some .ENGINEER) demo_occupancy 7 (2, 1)) (2, 2) =
      some false ∧
    verify_move (some .ENGINEER) true demo_occupancy 7 (some (2, 1)) (2, 2) =
      some .ROAD ∧
    verify_move (some .ENGINEER) true demo_occupancy 7 (some (2, 1)) (2, 2) ≠
      some .RAILROAD := by
  decide

theorem add_event_maybies {p : BoardPiece} {e : Event} {p' : BoardPiece}
    {l : List PieceKind} (h : add_event p e = .ok p')
    (hm : p.maybies = some l) :
    ∃ l', p'.maybies = some l' ∧ (∀ k ∈ l', k ∈ l) ∧
      (∀ k ∈ l, event_possible_for_type p.pid e k = .ok true → k ∈ l') := by
  obtain ⟨_, _, hdis⟩ := add_event_ok_anatomy h
  rcases hdis with ⟨hn, _⟩ | ⟨l0, l', h0, h', hf⟩
  · rw [hm] at hn
    exact Option.noConfusion hn
  · rw [hm] at h0
    injection h0 with h0
    subst h0
    obtain ⟨hsub, hkeep⟩ := filter_possible_spec hf
    exact ⟨l', h', hsub, hkeep⟩

/-- C8: for an opponent piece carrying a candidate-archetype set,
`add_event` only removes candidates — the resulting set is a subset of the
old one — and a candidate the event remains possible for is never removed;
consequently, across any whole event history, an archetype consistent with
every observed event stays in the set, which therefore never becomes
empty. -/
theorem maybies_monotone_and_sound :
    (∀ (p : BoardPiece) (e : Event) (p' : BoardPiece) (l : List PieceKind),
      add_event p e = .ok p' → p.maybies = some l →
      ∃ l', p'.maybies = some l' ∧ (∀ k ∈ l', k ∈ l) ∧
        (∀ k ∈ l, event_possible_for_type p.pid e k = .ok true → k ∈ l')) ∧
    (∀ (p : BoardPiece) (es : List Event) (p' : BoardPiece)
        (l : List PieceKind) (k : PieceKind),
      add_events p es = .ok p' → p.maybies = some l → k ∈ l →
      (∀ e ∈ es, event_possible_for_type p.pid e k = .ok true) →
      ∃ l', p'.maybies = some l' ∧ k ∈ l' ∧ l' ≠ []) := by
  constructor
  · intro p e p' l h hm
    exact add_event_maybies h hm
  · intro p es p' l k
    induction es generalizing p l with
    | nil =>
      intro h hm hk _
      simp only [add_events] at h
      injection h with h
      subst h
      exact ⟨l, hm, hk, List.ne_nil_of_mem hk⟩
    | cons e rest ih =>
      intro h hm hk hcons
      simp only [add_events] at h
      obtain ⟨p1, hp1, hrest⟩ := except_bind_ok.1 h
      obtain ⟨l1, hm1, _, hkeep1⟩ := add_event_maybies hp1 hm
      have hpid : p1.pid = p.pid := (add_event_ok_anatomy hp1).1
      have hk1 : k ∈ l1 := hkeep1 k hk (hcons e (List.mem_cons_self _ _))
      refine ih p1 l1 hrest hm1 hk1 ?_
      intro e' he'
      rw [hpid]
      exact hcons e' (List.mem_cons_of_mem _ he')

theorem maybies_monotone_and_sound_witness :
    ∃ l', demo_enemy_placed.maybies = some l' ∧ PieceKind.MARSHAL ∈ l' ∧
      l' ≠ [] :=
  maybies_monotone_and_sound.2 demo_enemy [demo_placement] demo_enemy_placed
    pieces .MARSHAL (by decide) rfl (by decide) (by decide)

theorem getLast_append_one {α : Type} (l : List α) (x : α) :
    (l ++ [x]).getLast? = some x :=
  List.getLast?_concat l

/-- A non-sessile attacker archetype never makes `simulate_attack_types`
fail: every defender archetype falls into the rank, bomb, or flag branch. -/
theorem simulate_types_total (kA k : PieceKind) (hs : kA.sessile = false) :
    ∃ r, simulate_attack_types kA k = .ok r := by
  cases kA <;> first
    | exact absurd hs (by decide)
    | (cases k <;> exact ⟨_, rfl⟩)

/-- A non-sessile bomb archetype attacking any archetype yields no winner
(the bomb branch precedes every later special case). -/
theorem simulate_types_bomb (kA k : PieceKind) (hb : kA.bomb = true)
    (hs : kA.sessile = false) : simulate_attack_types kA k = .ok .neither := by
  cases kA <;> first
    | (cases k <;> decide)
    | exact absurd hb (by decide)
    | exact absurd hs (by decide)

/-- For a defender piece observing a real attack by another piece with a
known archetype, the possibility check is total: it returns `ok` on every
candidate archetype. -/
theorem event_possible_victim_total {pid : Nat} {e : Event} {a : AttackInfo}
    {kA : PieceKind} {st : Int × Int}
    (hstart : e.start = some st) (hpid : e.pieceId ≠ pid)
    (hatt : e.attack = some a) (hspec : e.pieceSpec = some kA)
    (haspec : a.pieceSpec = none) (hsess : kA.sessile = false)
    (k : PieceKind) : ∃ b, event_possible_for_type pid e k = .ok b := by
  obtain ⟨r, hr⟩ := simulate_types_total kA k hsess
  have hsim : simulate_attack e.pieceSpec none a.pieceSpec (some k) = .ok r := by
    rw [hspec, haspec]
    exact hr
  cases r with
  | attacker =>
    refine ⟨decide (some e.pieceId = a.winner), ?_⟩
    simp [event_possible_for_type, hstart, hatt, hpid, hsim,
      Bind.bind, Except.bind]
  | attacked =>
    refine ⟨decide (some a.pieceId = a.winner), ?_⟩
    simp [event_possible_for_type, hstart, hatt, hpid, hsim,
      Bind.bind, Except.bind]
  | neither =>
    refine ⟨decide (none = a.winner), ?_⟩
    simp [event_possible_for_type, hstart, hatt, hpid, hsim,
      Bind.bind, Except.bind]

theorem filter_possible_total {pid : Nat} {e : Event}
    (htot : ∀ k : PieceKind, ∃ b, event_possible_for_type pid e k = .ok b) :
    ∀ l : List PieceKind, ∃ l2, filter_possible pid e l = .ok l2 := by
  intro l
  induction l with
  | nil => exact ⟨[], rfl⟩
  | cons k rest ih =>
    obtain ⟨b, hb⟩ := htot k
    obtain ⟨r, hr⟩ := ih
    refine ⟨if b then k :: r else r, ?_⟩
    simp only [filter_possible]
    refine except_bind_ok.2 ⟨b, hb, ?_⟩
    exact except_bind_ok.2 ⟨r, hr, rfl⟩

/-- `add_event` on the moving piece itself (no candidate set): the event
is appended to `events` and `movements`. -/
theorem add_event_mover {p : BoardPiece} {e : Event}
    (hdead : p.dead = false) (hpid : e.pieceId = p.pid)
    (hm : p.maybies = none) :
    add_event p e = .ok (moved_piece p e) := by
  unfold moved_piece add_event
  rw [if_neg (by simp [hdead])]
  refine except_bind_ok.2 ⟨{ p with movements := p.movements ++ [e] },
    by rw [if_pos hpid], ?_⟩
  simp only [hm]

/-- For the moving piece itself, the possibility check is total on every
candidate archetype: a sessile candidate is answered `ok false` before the
attack simulation, and a non-sessile candidate simulates safely (when the
event carries no attack, or carries one against a piece of known
archetype while the mover's own spec is unknown). -/
theorem event_possible_mover_total {pid : Nat} {e : Event} {st : Int × Int}
    (hstart : e.start = some st) (hpid : e.pieceId = pid)
    (hcase : e.attack = none ∨
      ∃ a kD, e.attack = some a ∧ e.pieceSpec = none ∧
        a.pieceSpec = some kD)
    (k : PieceKind) : ∃ b, event_possible_for_type pid e k = .ok b := by
  unfold event_possible_for_type
  rw [if_neg (by simp [hstart])]
  by_cases h1 : (k.sessile && decide (e.pieceId = pid)) = true
  · rw [if_pos h1]
    exact ⟨false, rfl⟩
  · rw [if_neg h1]
    by_cases h2 : (!k.railroad_corners && decide (e.pieceId = pid) &&
        decide (e.move_type = MoveType.RAILROAD_CORNER)) = true
    · rw [if_pos h2]
      exact ⟨false, rfl⟩
    · rw [if_neg h2]
      rcases hcase with hatt | ⟨a, kD, hatt, hps, haps⟩
      · refine ⟨true, ?_⟩
        rw [hatt]
      · have hks : k.sessile = false := by
          have h1' := h1
          simp [hpid] at h1'
          exact h1'
        obtain ⟨r, hr⟩ := simulate_types_total k kD hks
        have hsim : simulate_attack e.pieceSpec (some k) a.pieceSpec none =
            .ok r := by
          rw [hps, haps]
          exact hr
        cases r with
        | attacker =>
          refine ⟨decide (some e.pieceId = a.winner), ?_⟩
          simp [hatt, hpid, hsim, Bind.bind, Except.bind]
        | attacked =>
          refine ⟨decide (some a.pieceId = a.winner), ?_⟩
          simp [hatt, hpid, hsim, Bind.bind, Except.bind]
        | neither =>
          refine ⟨decide (none = a.winner), ?_⟩
          simp [hatt, hpid, hsim, Bind.bind, Except.bind]

/-- `add_event` on the moving piece with an arbitrary candidate set: when
the possibility filter is total it succeeds, keeps identity and spec, and
appends the event to `events` and `movements`. -/
theorem add_event_mover_total {p : BoardPiece} {e : Event}
    (hdead : p.dead = false) (hpid : e.pieceId = p.pid)
    (hfp : ∀ l, p.maybies = some l → ∃ l2, filter_possible p.pid e l = .ok l2) :
    ∃ p', add_event p e = .ok p' ∧ p'.pid = p.pid ∧ p'.spec = p.spec ∧
      p'.events = p.events ++ [e] ∧ p'.movements = p.movements ++ [e] := by
  cases hm : p.maybies with
  | none =>
    exact ⟨moved_piece p e, add_event_mover hdead hpid hm, rfl, rfl, rfl, rfl⟩
  | some l =>
    obtain ⟨l2, hl2⟩ := hfp l hm
    unfold add_event
    rw [if_neg (by simp [hdead])]
    refine ⟨({ moved_piece p e with maybies := some l2 }),
      ?_, rfl, rfl, rfl, rfl⟩
    refine except_bind_ok.2 ⟨{ p with movements := p.movements ++ [e] },
      by rw [if_pos hpid], ?_⟩
    simp only [hm]
    exact except_bind_ok.2 ⟨l2, hl2, rfl⟩

/-- `add_event` on the attacked piece of a real attack: it succeeds when
the possibility filter is total, keeps identity/spec/movements, and
appends the event to `events`. -/
theorem add_event_victim {p : BoardPiece} {e : Event} {a : AttackInfo}
    (hdead : p.dead = false) (hpid : e.pieceId ≠ p.pid)
    (hatt : e.attack = some a) (hapid : a.pieceId = p.pid)
    (hth : a.theoretical = false)
    (hfp : ∀ l, p.maybies = some l → ∃ l2, filter_possible p.pid e l = .ok l2) :
    ∃ p', add_event p e = .ok p' ∧ p'.pid = p.pid ∧ p'.spec = p.spec ∧
      p'.events = p.events ++ [e] ∧ p'.movements = p.movements := by
  have h1 : (if e.pieceId = p.pid then
      Except.ok { p with movements := p.movements ++ [e] }
    else
      match e.attack with
      | some a' =>
        if a'.pieceId = p.pid then
          if a'.theoretical then
            Except.error "A theoretical attack cannot be an event!"
          else Except.ok { p with attacks := p.attacks ++ [e] }
        else Except.error "This event is not relevant to this piece"
      | none => Except.error "This event is not relevant to this piece") =
      Except.ok { p with attacks := p.attacks ++ [e] } := by
    rw [if_neg hpid, hatt]
    simp only [if_pos hapid, hth, Bool.false_eq_true, if_false, ite_false]
  cases hm : p.maybies with
  | none =>
    unfold add_event
    rw [if_neg (by simp [hdead])]
    refine ⟨({ p with attacks := p.attacks ++ [e], events := p.events ++ [e] }),
      ?_, rfl, rfl, rfl, rfl⟩
    refine except_bind_ok.2 ⟨{ p with attacks := p.attacks ++ [e] }, h1, ?_⟩
    simp only [hm]
  | some l =>
    obtain ⟨l2, hl2⟩ := hfp l hm
    unfold add_event
    rw [if_neg (by simp [hdead])]
    refine ⟨({ p with
               attacks := p.attacks ++ [e],
               events := p.events ++ [e],
               maybies := some l2 }),
      ?_, rfl, rfl, rfl, rfl⟩
    refine except_bind_ok.2 ⟨{ p with attacks := p.attacks ++ [e] }, h1, ?_⟩
    simp only [hm]
    exact except_bind_ok.2 ⟨l2, hl2, rfl⟩

/-- `check_pulse` leaves the state unchanged for a living piece. -/
theorem check_pulse_alive {s : GameState} {p : BoardPiece}
    (h : p.dead = false) : check_pulse s p = .ok s := by
  unfold check_pulse
  rw [if_pos (by simp [h])]

/-- `check_pulse` on a dead friendly piece: clear its death square and
move it to the dead set. -/
theorem check_pulse_dead_friendly {s : GameState} {p : BoardPiece}
    {pos : Int × Int} (hd : p.dead = true) (hdied : p.died_at = some pos)
    (hin : inSystemB pos = true) (hf : p.friendly = true)
    (hmem : p.pid ∈ s.friendly_pieces) :
    check_pulse s p = .ok { s with
      board := fun q => if q = pos then none else s.board q,
      friendly_pieces := s.friendly_pieces.erase p.pid,
      friendly_pieces_dead := s.friendly_pieces_dead ++ [p.pid] } := by
  unfold check_pulse
  rw [if_neg (by simp [hd])]
  have hpos : (match p.died_at with
      | some q => Except.ok q
      | none => Except.error "KeyError") = Except.ok pos := by
    rw [hdied]
  refine except_bind_ok.2 ⟨pos, hpos, ?_⟩
  refine except_bind_ok.2 ⟨fun q => if q = pos then none else s.board q, ?_, ?_⟩
  · unfold board_set
    rw [if_pos hin]
  · rw [if_pos hf]
    refine except_bind_ok.2 ⟨s.friendly_pieces.erase p.pid, ?_, ?_⟩
    · unfold remove_from
      rw [if_pos hmem]
    · rfl

/-- `check_pulse` on a dead enemy piece. -/
theorem check_pulse_dead_enemy {s : GameState} {p : BoardPiece}
    {pos : Int × Int} (hd : p.dead = true) (hdied : p.died_at = some pos)
    (hin : inSystemB pos = true) (hf : p.friendly = false)
    (hmem : p.pid ∈ s.enemy_pieces) :
    check_pulse s p = .ok { s with
      board := fun q => if q = pos then none else s.board q,
      enemy_pieces := s.enemy_pieces.erase p.pid,
      enemy_pieces_dead := s.enemy_pieces_dead ++ [p.pid] } := by
  unfold check_pulse
  rw [if_neg (by simp [hd])]
  have hpos : (match p.died_at with
      | some q => Except.ok q
      | none => Except.error "KeyError") = Except.ok pos := by
    rw [hdied]
  refine except_bind_ok.2 ⟨pos, hpos, ?_⟩
  refine except_bind_ok.2 ⟨fun q => if q = pos then none else s.board q, ?_, ?_⟩
  · unfold board_set
    rw [if_pos hin]
  · rw [if_neg (by simp [hf])]
    refine except_bind_ok.2 ⟨s.enemy_pieces.erase p.pid, ?_, ?_⟩
    · unfold remove_from
      rw [if_pos hmem]
    · rfl

/-- `move_on_board` on a vacant destination: clear the start square and
write the mover at the destination. -/
theorem move_on_board_ok {s : GameState} {m : Event} {st : Int × Int}
    (hvac : s.board m.dest = none) (hst : m.start = some st)
    (hin1 : inSystemB st = true) (hin2 : inSystemB m.dest = true) :
    move_on_board s m = .ok { s with
      board := fun q => if q = m.dest then some m.pieceId
                        else if q = st then none else s.board q } := by
  unfold move_on_board
  rw [if_neg (by simp [hvac])]
  have hpos : (match m.start with
      | some q => Except.ok q
      | none => Except.error "KeyError") = Except.ok st := by
    rw [hst]
  refine except_bind_ok.2 ⟨st, hpos, ?_⟩
  refine except_bind_ok.2 ⟨fun q => if q = st then none else s.board q, ?_, ?_⟩
  · unfold board_set
    rw [if_pos hin1]
  · refine except_bind_ok.2 ⟨fun q => if q = m.dest then some m.pieceId
        else if q = st then none else s.board q, ?_, ?_⟩
    · unfold board_set
      rw [if_pos hin2]
    · rfl

/-- C2: a bomb attack is mutual destruction.  (i) At the archetype level,
a non-sessile bomb archetype attacking any archetype yields no winner.
(ii) At the game-state level, applying such an attack move through
`add_move` leaves both the attacker and the defender dead in the registry,
clears both their board squares, and moves both from the living sets to
the dead sets — not only the attacker. -/
theorem bomb_attack_mutual_destruction :
    (∀ kA ∈ pieces, kA.bomb = true → kA.sessile = false →
      ∀ kD ∈ pieces,
        simulate_attack (some kA) none (some kD) none = .ok .neither) ∧
    (∀ (s : GameState) (m : Event) (a : AttackInfo) (A D : BoardPiece)
        (kA : PieceKind) (sA eD : Int × Int) (lmD : Event),
      m.attack = some a → a.winner = none → a.theoretical = false →
      m.pieceId = A.pid → a.pieceId = D.pid → A.pid ≠ D.pid →
      s.reg A.pid = some A → s.reg D.pid = some D →
      A.spec = some kA → kA.bomb = true → kA.sessile = false →
      A.maybies = none → D.spec = none → a.pieceSpec = none →
      m.pieceSpec = some kA → A.dead = false → D.dead = false →
      m.start = some sA → inSystemB sA = true →
      D.movements.getLast? = some lmD →
      (fatal_event D lmD).getD false = false → lmD.dest = eD →
      inSystemB eD = true →
      A.pid ∈ s.friendly_pieces → D.pid ∈ s.enemy_pieces →
      s.friendly_pieces.Nodup → s.enemy_pieces.Nodup →
      ∃ s', add_move s m = .ok s' ∧
        (∃ A', s'.reg A.pid = some A' ∧ A'.dead = true) ∧
        (∃ D', s'.reg D.pid = some D' ∧ D'.dead = true) ∧
        s'.board sA = none ∧ s'.board eD = none ∧
        A.pid ∉ s'.friendly_pieces ∧ A.pid ∈ s'.friendly_pieces_dead ∧
        D.pid ∉ s'.enemy_pieces ∧ D.pid ∈ s'.enemy_pieces_dead) := by
  constructor
  · decide
  · intro s m a A D kA sA eD lmD h1 h2 h3 h4 h5 h6 h7 h8 h9 h10 h11 h12
      h13 h14 h15 h16 h17 h18 h19 h20 h21 h22 h23 h24 h25 h26 h27
    have hmpid : m.pieceId ≠ D.pid := by
      rw [h4]
      exact h6
    have htot : ∀ l, D.maybies = some l →
        ∃ l2, filter_possible D.pid m l = .ok l2 := by
      intro l _
      exact filter_possible_total
        (fun k => event_possible_victim_total h18 hmpid h1 h15 h14 h11 k) l
    obtain ⟨D1, hD1, hD1pid, hD1spec, hD1ev, hD1mv⟩ :=
      add_event_victim h17 hmpid h1 h5 h3 htot
    have hA1 : add_event A m = .ok (moved_piece A m) :=
      add_event_mover h16 h4 h12
    have hA1dead : (moved_piece A m).dead = true := by
      simp [moved_piece, BoardPiece.dead, getLast_append_one, fatal_event,
        h1, h2]
    have hA1died : (moved_piece A m).died_at = some sA := by
      simp [moved_piece, BoardPiece.died_at, BoardPiece.dead,
        getLast_append_one, fatal_event, h1, h2, h18]
    have hA1friendly : (moved_piece A m).friendly = true := by
      simp [moved_piece, BoardPiece.friendly, h9]
    have hfe : ∀ e', fatal_event D1 e' = fatal_event D e' := by
      intro e'
      unfold fatal_event
      rw [hD1pid]
    have hD1dead : D1.dead = true := by
      simp [BoardPiece.dead, hD1ev, getLast_append_one, fatal_event, h1, h2]
    have hD1died : D1.died_at = some eD := by
      simp [BoardPiece.died_at, hD1dead, hD1mv, h20, hfe, h21, h22]
    have hD1friendly : D1.friendly = false := by
      simp [BoardPiece.friendly, hD1spec, h13]
    have hifok : ∀ t : GameState,
        (if ¬ (moved_piece A m).dead = true then move_on_board t m
         else Except.ok t) = Except.ok t := by
      intro t
      exact if_neg (by simp [hA1dead])
    refine ⟨({ board := fun q => if q = eD then none
                 else if q = sA then none else s.board q,
               reg := fun i => if i = m.pieceId then some (moved_piece A m)
                 else if i = a.pieceId then some D1 else s.reg i,
               friendly_pieces := s.friendly_pieces.erase A.pid,
               friendly_pieces_dead := s.friendly_pieces_dead ++ [A.pid],
               enemy_pieces := s.enemy_pieces.erase D1.pid,
               enemy_pieces_dead := s.enemy_pieces_dead ++ [D1.pid],
               turn := s.turn + 1 } : GameState),
      ?_, ?_, ?_, ?_, ?_, ?_, ?_, ?_, ?_⟩
    · unfold add_move
      refine except_bind_ok.2 ⟨A, ?_, ?_⟩
      · rw [h4, h7]
      · refine except_bind_ok.2 ⟨_, hA1, ?_⟩
        simp only [h1]
        refine except_bind_ok.2 ⟨D, ?_, ?_⟩
        · rw [h5, h8]
        · refine except_bind_ok.2 ⟨D1, hD1, ?_⟩
          refine except_bind_ok.2
            ⟨_, check_pulse_dead_friendly hA1dead hA1died h19 hA1friendly h24,
             ?_⟩
          refine except_bind_ok.2
            ⟨_, check_pulse_dead_enemy hD1dead hD1died h23 hD1friendly
              (by rw [hD1pid]; exact h25), ?_⟩
          dsimp only
          rw [hifok]
          rfl
    · refine ⟨moved_piece A m, ?_, hA1dead⟩
      simp [h4]
    · refine ⟨D1, ?_, hD1dead⟩
      simp [h4, h5, Ne.symm h6]
    · simp
    · simp
    · intro hc
      have := (List.Nodup.mem_erase_iff h26).1 hc
      exact this.1 rfl
    · simp
    · intro hc
      rw [hD1pid] at hc
      have := (List.Nodup.mem_erase_iff h27).1 hc
      exact this.1 rfl
    · simp [hD1pid]

theorem bomb_attack_mutual_destruction_witness :
    ∃ s', add_move demo_state demo_bomb_move = .ok s' ∧
      (∃ A', s'.reg demo_bomb_attacker.pid = some A' ∧ A'.dead = true) ∧
      (∃ D', s'.reg demo_defender.pid = some D' ∧ D'.dead = true) ∧
      s'.board (0, 1) = none ∧ s'.board (0, 2) = none ∧
      demo_bomb_attacker.pid ∉ s'.friendly_pieces ∧
      demo_bomb_attacker.pid ∈ s'.friendly_pieces_dead ∧
      demo_defender.pid ∉ s'.enemy_pieces ∧
      demo_defender.pid ∈ s'.enemy_pieces_dead :=
  bomb_attack_mutual_destruction.2 demo_state demo_bomb_move demo_attack_info
    demo_bomb_attacker demo_defender .BOMB (0, 1) (0, 2) demo_defender_move
    rfl rfl rfl rfl rfl (by decide) rfl rfl rfl rfl rfl rfl rfl rfl rfl rfl
    rfl rfl (by decide) rfl rfl rfl (by decide) (by decide) (by decide)
    (by decide) (by decide)

/-- C6: applying a valid non-fatal Movement with `add_move` and then
reading the board round-trips: `get` at the destination returns the moved
piece, `get` at the start returns `none`, and the turn counter increases
by exactly 1.  Case (i): a plain move with no attack onto a vacant square,
by either side (the mover may carry a candidate-archetype set).  Case
(ii): a move with an attack the mover wins (the defender dies at the
destination, which is cleared before the mover is placed there), again by
either side: the mover and the defender may each be the friendly or the
enemy piece, with the corresponding known-spec/candidate-set shape and
dead-set bookkeeping. -/
theorem nonfatal_move_roundtrip :
    (∀ (s : GameState) (m : Event) (A : BoardPiece) (sA : Int × Int),
      m.attack = none → m.pieceId = A.pid → s.reg A.pid = some A →
      A.dead = false →
      m.start = some sA → inSystemB sA = true → inSystemB m.dest = true →
      s.board m.dest = none → sA ≠ m.dest →
      ∃ s', add_move s m = .ok s' ∧ get s' m.dest = .ok (some m.pieceId) ∧
        get s' sA = .ok none ∧ s'.turn = s.turn + 1) ∧
    (∀ (s : GameState) (m : Event) (a : AttackInfo) (A D : BoardPiece)
        (sA : Int × Int) (lmD : Event),
      m.attack = some a → a.winner = some m.pieceId → a.theoretical = false →
      m.pieceId = A.pid → a.pieceId = D.pid → A.pid ≠ D.pid →
      s.reg A.pid = some A → s.reg D.pid = some D →
      A.dead = false → D.dead = false →
      m.start = some sA → inSystemB sA = true → inSystemB m.dest = true →
      D.movements.getLast? = some lmD →
      (fatal_event D lmD).getD false = false → lmD.dest = m.dest →
      sA ≠ m.dest →
      (A.maybies = none ∨
        (m.pieceSpec = none ∧ ∃ kD, a.pieceSpec = some kD)) →
      (D.maybies = none ∨
        (a.pieceSpec = none ∧
          ∃ kA, m.pieceSpec = some kA ∧ kA.sessile = false)) →
      ((D.friendly = true ∧ D.pid ∈ s.friendly_pieces) ∨
        (D.friendly = false ∧ D.pid ∈ s.enemy_pieces)) →
      ∃ s', add_move s m = .ok s' ∧ get s' m.dest = .ok (some m.pieceId) ∧
        get s' sA = .ok none ∧ s'.turn = s.turn + 1) := by
  constructor
  · intro s m A sA c1 c2 c3 c4 c5 c6 c7 c8 c9
    have htotA : ∀ l, A.maybies = some l →
        ∃ l2, filter_possible A.pid m l = .ok l2 := by
      intro l _
      exact filter_possible_total
        (fun k => event_possible_mover_total c5 c2 (Or.inl c1) k) l
    obtain ⟨A1, hA1, hA1pid, hA1spec, hA1ev, hA1mv⟩ :=
      add_event_mover_total c4 c2 htotA
    have hA1alive : A1.dead = false := by
      simp [BoardPiece.dead, hA1ev, getLast_append_one, fatal_event, c1]
    have hifmv : ∀ t : GameState,
        (if ¬ A1.dead = true then move_on_board t m
         else Except.ok t) = move_on_board t m := by
      intro t
      exact if_pos (by simp [hA1alive])
    refine ⟨({ board := fun q => if q = m.dest then some m.pieceId
                 else if q = sA then none else s.board q,
               reg := fun i => if i = m.pieceId then some A1
                 else s.reg i,
               friendly_pieces := s.friendly_pieces,
               friendly_pieces_dead := s.friendly_pieces_dead,
               enemy_pieces := s.enemy_pieces,
               enemy_pieces_dead := s.enemy_pieces_dead,
               turn := s.turn + 1 } : GameState), ?_, ?_, ?_, ?_⟩
    · unfold add_move
      refine except_bind_ok.2 ⟨A, ?_, ?_⟩
      · rw [c2, c3]
      · refine except_bind_ok.2 ⟨A1, hA1, ?_⟩
        simp only [c1]
        rw [hifmv]
        refine except_bind_ok.2 ⟨_, move_on_board_ok c8 c5 c6 c7, ?_⟩
        rfl
    · simp [get, c7]
    · simp [get, c6, c9]
    · rfl
  · intro s m a A D sA lmD d1 d2 d3 d4 d5 d6 d7 d8 d9 d10 d11 d12 d13 d14
      d15 d16 d17 d18 d19 d20
    have hmpid : m.pieceId ≠ D.pid := by
      rw [d4]
      exact d6
    have htotA : ∀ l, A.maybies = some l →
        ∃ l2, filter_possible A.pid m l = .ok l2 := by
      rcases d18 with hnone | ⟨hps, kD, haps⟩
      · intro l hl
        rw [hnone] at hl
        exact Option.noConfusion hl
      · intro l _
        exact filter_possible_total
          (fun k => event_possible_mover_total d11 d4
            (Or.inr ⟨a, kD, d1, hps, haps⟩) k) l
    have htotD : ∀ l, D.maybies = some l →
        ∃ l2, filter_possible D.pid m l = .ok l2 := by
      rcases d19 with hnone | ⟨haps, kA, hps, hks⟩
      · intro l hl
        rw [hnone] at hl
        exact Option.noConfusion hl
      · intro l _
        exact filter_possible_total
          (fun k => event_possible_victim_total d11 hmpid d1 hps haps hks k) l
    obtain ⟨A1, hA1, hA1pid, hA1spec, hA1ev, hA1mv⟩ :=
      add_event_mover_total d9 d4 htotA
    obtain ⟨D1, hD1, hD1pid, hD1spec, hD1ev, hD1mv⟩ :=
      add_event_victim d10 hmpid d1 d5 d3 htotD
    have hA1alive : A1.dead = false := by
      simp [BoardPiece.dead, hA1ev, getLast_append_one, fatal_event,
        d1, d2, d4, hA1pid]
    have hfe : ∀ e', fatal_event D1 e' = fatal_event D e' := by
      intro e'
      unfold fatal_event
      rw [hD1pid]
    have hD1dead : D1.dead = true := by
      simp [BoardPiece.dead, hD1ev, getLast_append_one, fatal_event,
        d1, d2, hD1pid, d4, d6]
    have hD1died : D1.died_at = some m.dest := by
      simp [BoardPiece.died_at, hD1dead, hD1mv, d14, hfe, d15, d16]
    have hD1fr : D1.friendly = D.friendly := by
      simp [BoardPiece.friendly, hD1spec]
    have hifmv : ∀ t : GameState,
        (if ¬ A1.dead = true then move_on_board t m
         else Except.ok t) = move_on_board t m := by
      intro t
      exact if_pos (by simp [hA1alive])
    rcases d20 with ⟨hDf, hDmem⟩ | ⟨hDf, hDmem⟩
    · refine ⟨({ board := fun q => if q = m.dest then some m.pieceId
                   else if q = sA then none
                   else if q = m.dest then none else s.board q,
                 reg := fun i => if i = m.pieceId then some A1
                   else if i = a.pieceId then some D1 else s.reg i,
                 friendly_pieces := s.friendly_pieces.erase D1.pid,
                 friendly_pieces_dead := s.friendly_pieces_dead ++ [D1.pid],
                 enemy_pieces := s.enemy_pieces,
                 enemy_pieces_dead := s.enemy_pieces_dead,
                 turn := s.turn + 1 } : GameState), ?_, ?_, ?_, ?_⟩
      · unfold add_move
        refine except_bind_ok.2 ⟨A, ?_, ?_⟩
        · rw [d4, d7]
        · refine except_bind_ok.2 ⟨A1, hA1, ?_⟩
          simp only [d1]
          refine except_bind_ok.2 ⟨D, ?_, ?_⟩
          · rw [d5, d8]
          · refine except_bind_ok.2 ⟨D1, hD1, ?_⟩
            refine except_bind_ok.2 ⟨_, check_pulse_alive hA1alive, ?_⟩
            refine except_bind_ok.2 ⟨_, check_pulse_dead_friendly hD1dead
              hD1died d13 (by rw [hD1fr]; exact hDf)
              (by rw [hD1pid]; exact hDmem), ?_⟩
            dsimp only
            rw [hifmv]
            refine except_bind_ok.2
              ⟨_, move_on_board_ok (by simp) d11 d12 d13, ?_⟩
            rfl
      · simp [get, d13]
      · simp [get, d12, d17]
      · rfl
    · refine ⟨({ board := fun q => if q = m.dest then some m.pieceId
                   else if q = sA then none
                   else if q = m.dest then none else s.board q,
                 reg := fun i => if i = m.pieceId then some A1
                   else if i = a.pieceId then some D1 else s.reg i,
                 friendly_pieces := s.friendly_pieces,
                 friendly_pieces_dead := s.friendly_pieces_dead,
                 enemy_pieces := s.enemy_pieces.erase D1.pid,
                 enemy_pieces_dead := s.enemy_pieces_dead ++ [D1.pid],
                 turn := s.turn + 1 } : GameState), ?_, ?_, ?_, ?_⟩
      · unfold add_move
        refine except_bind_ok.2 ⟨A, ?_, ?_⟩
        · rw [d4, d7]
        · refine except_bind_ok.2 ⟨A1, hA1, ?_⟩
          simp only [d1]
          refine except_bind_ok.2 ⟨D, ?_, ?_⟩
          · rw [d5, d8]
          · refine except_bind_ok.2 ⟨D1, hD1, ?_⟩
            refine except_bind_ok.2 ⟨_, check_pulse_alive hA1alive, ?_⟩
            refine except_bind_ok.2 ⟨_, check_pulse_dead_enemy hD1dead
              hD1died d13 (by rw [hD1fr]; exact hDf)
              (by rw [hD1pid]; exact hDmem), ?_⟩
            dsimp only
            rw [hifmv]
            refine except_bind_ok.2
              ⟨_, move_on_board_ok (by simp) d11 d12 d13, ?_⟩
            rfl
      · simp [get, d13]
      · simp [get, d12, d17]
      · rfl

theorem nonfatal_move_roundtrip_witness :
    ∃ s', add_move demo_state demo_enemy_road_move = .ok s' ∧
      get s' demo_enemy_road_move.dest =
        .ok (some demo_enemy_road_move.pieceId) ∧
      get s' (0, 2) = .ok none ∧ s'.turn = demo_state.turn + 1 :=
  nonfatal_move_roundtrip.1 demo_state demo_enemy_road_move demo_defender
    (0, 2) rfl rfl rfl rfl rfl (by decide) (by decide) (by decide)
    (by decide)

end Luzhanqi
